import Mathlib

/-!
Verification of the session discovery, ownership and transcript-tailing engine
of the pixel-agents repository.

The embedding models, faithfully to the TypeScript source:
* the extension's ownership bookkeeping (`claimFile`, `switchFile`,
  `stopWatching`, `scanForNewFile` from `src/extension.ts`),
* the extension's tail-read routine (`readNewLines` from `src/extension.ts`),
* the transcript activity reducer (`processTranscriptLine` from
  `src/extension.ts`),
* the standalone server's `SessionScanner` (`scanLocal`, `scanRemote`,
  `markKnown`) and `createLocalAgent`,
* the project-path encoding (`getProjectDirPath`) and its decoding
  (the scanner's `projectName` derivation).

JavaScript `Map`s are modelled as association lists, `Set`s as duplicate-free
lists, strings as `String` or `List Char` (byte offsets coincide with character
offsets for the ASCII transcripts the engine handles).
-/

/-! ## Association-list model of JavaScript `Map` -/

/-- The `Map.get`: first binding of the key, if any. -/

def alookup {κ α : Type} [DecidableEq κ] : List (κ × α) → κ → Option α
  | [], _ => none
  | (k, v) :: m, a => if k = a then some v else alookup m a

/-- The `Map.set`: replace the binding if present, else append a fresh one. -/

def aset {κ α : Type} [DecidableEq κ] : List (κ × α) → κ → α → List (κ × α)
  | [], a, v => [(a, v)]
  | (k, w) :: m, a, v => if k = a then (a, v) :: m else (k, w) :: aset m a v

/-- The `Map.delete`: drop every binding of the key. -/

def adel {κ α : Type} [DecidableEq κ] : List (κ × α) → κ → List (κ × α)
  | [], _ => []
  | (k, w) :: m, a => if k = a then adel m a else (k, w) :: adel m a

/-- The `Set.add`: insert unless already present. -/

def sinsert {α : Type} [DecidableEq α] (x : α) (l : List α) : List α :=
  if x ∈ l then l else x :: l

/-! ## Newline splitting (`text.split('\n')` of JavaScript) -/

/-- Glue a piece of text onto the first chunk (empty chunk list treated as one
empty chunk). -/

def glueHead (pre : List Char) : List (List Char) → List (List Char)
  | [] => [pre]
  | l :: ls => (pre ++ l) :: ls

/-- The `text.split('\n')`: the list of newline-separated chunks; always nonempty,
the last chunk is the text after the final newline (possibly empty). -/

def splitNl : List Char → List (List Char)
  | [] => [[]]
  | c :: cs => if c = '\n' then [] :: splitNl cs else glueHead [c] (splitNl cs)

/-- Inverse of `splitNl`: join chunks with `'\n'`. -/

def joinNl : List (List Char) → List Char
  | [] => []
  | [l] => l
  | l :: ls => l ++ '\n' :: joinNl ls

/-- The last chunk of a chunk list (`lines[lines.length - 1]`). -/

def lastChunk : List (List Char) → List Char
  | [] => []
  | [l] => l
  | _ :: ls => lastChunk ls

/-- All chunks but the last (what remains after `lines.pop()`). -/

def initChunks : List (List Char) → List (List Char)
  | [] => []
  | [_] => []
  | l :: ls => l :: initChunks ls

/-! ## The tail-read routine

`readNewLines` (src/extension.ts lines 579-605): stat the file, no-op when the
size has not grown past the stored offset, otherwise read exactly the delta
bytes, advance the stored offset to the size and stamp `lastDataTime` with
`Date.now()`, prepend the stored line remainder, split on newlines, store the
final (possibly incomplete) chunk back as the remainder, and forward every
complete non-blank line to `processTranscriptLine`.  The file content is the
list of characters currently in the file; the `(fileOffsets, lineBuffers)`
entries of one agent form the `TailState`, and together with the agent's
`lastDataTime` entry the `ExtTailState`. -/

structure TailState where
  offset : Nat
  buffer : List Char
deriving DecidableEq, Repr

/-- The per-agent tail state of the extension: the agent's entries of the
`fileOffsets`, `lineBuffers` and `lastDataTime` maps (src/extension.ts lines
582, 590, 593-596). -/

structure ExtTailState where
  offset : Nat
  buffer : List Char
  lastData : Nat
deriving DecidableEq, Repr

/-- The `(fileOffsets, lineBuffers)` part of an extension tail state. -/

def tailProj (st : ExtTailState) : TailState := ⟨st.offset, st.buffer⟩

/-- The `!line.trim()` is falsy exactly when the line has a non-whitespace char. -/

def isNonBlank (l : List Char) : Bool := l.any (fun c => !c.isWhitespace)

/-- The `readNewLines` of the extension: on a successful read it advances the
offset to the file size, stamps `lastDataTime` with the current clock `now`
(src/extension.ts line 590), stores the final incomplete chunk back as the
line buffer, and forwards the complete lines, skipping blank ones. -/

def readNewLines (content : List Char) (now : Nat) (st : ExtTailState) :
    ExtTailState × List (List Char) :=
  if content.length ≤ st.offset then (st, [])
  else
    let lines := splitNl (st.buffer ++ content.drop st.offset)
    (⟨content.length, lastChunk lines, now⟩, (initChunks lines).filter isNonBlank)

/-- Modelled from the spec: the standalone server's read routine
(`startFileWatching` in `src/fileWatcher.ts`) is not part of the source tree;
spec section 4.2 describes it: compare current size to the stored offset; if
unchanged, no-op; otherwise read exactly the delta bytes, concatenate with the
stored remainder, split on line boundaries, store the final fragment back, and
forward each complete line to the parser in order. -/

def fileWatcherRead (content : List Char) (st : TailState) : TailState × List (List Char) :=
  if content.length ≤ st.offset then (st, [])
  else
    let lines := splitNl (st.buffer ++ content.drop st.offset)
    (⟨content.length, lastChunk lines⟩, initChunks lines)

/-- Run a sequence of read invocations (any interleaving of the `fs.watch`
event handler, the 2s polling timer and the initial read), each invocation
seeing the file content at that moment. -/

def runFileWatcherReads : List (List Char) → TailState → TailState × List (List Char)
  | [], st => (st, [])
  | c :: cs, st =>
    let r := fileWatcherRead c st
    let rest := runFileWatcherReads cs r.1
    (rest.1, r.2 ++ rest.2)

/-- Same interleavings for the extension's `readNewLines`: each invocation
sees the file content and the `Date.now()` clock value of that moment. -/

def runReadNewLines : List (List Char × Nat) → ExtTailState → ExtTailState × List (List Char)
  | [], st => (st, [])
  | (c, n) :: ps, st =>
    let r := readNewLines c n st
    let rest := runReadNewLines ps r.1
    (rest.1, r.2 ++ rest.2)

/-! ## Ownership state of the extension (`ArcadiaViewProvider`)

The per-provider maps of src/extension.ts that participate in file ownership,
as association lists keyed by agent id.  Timers, watchers and the webview are
I/O handles with no ownership content and are not part of the state. -/

structure OwnState where
  watchedFiles : List (Nat × String)
  claimedFiles : List String
  knownFilesAtLaunch : List (Nat × List String)
  lastDataTime : List (Nat × Nat)
  fileOffsets : List (Nat × Nat)
  lineBuffers : List (Nat × String)
  agentProjectDirs : List (Nat × String)
  agentSessionIds : List (Nat × String)
deriving DecidableEq, Repr

def initOwnState : OwnState := ⟨[], [], [], [], [], [], [], []⟩

/-- The `claimFile` (src/extension.ts lines 520-550), ownership fields: record the
watched file, add it to `claimedFiles`, reset offset and line buffer, stamp
`lastDataTime` with `Date.now()`.  The `fs.watch`/poll installation and the
initial `readNewLines` touch no ownership field (reads are `readNewLines`). -/

def claimFile (agentId : Nat) (filePath : String) (now : Nat) (s : OwnState) : OwnState :=
  { s with
    watchedFiles := aset s.watchedFiles agentId filePath,
    claimedFiles := sinsert filePath s.claimedFiles,
    fileOffsets := aset s.fileOffsets agentId 0,
    lineBuffers := aset s.lineBuffers agentId "",
    lastDataTime := aset s.lastDataTime agentId now }

/-- The `switchFile` (lines 552-577): stop watching the old file, release it from
`claimedFiles`, remember it in the agent's known set (`?.add` is a no-op when
the agent has no known set), clear the tool state (modelled in
`AgentActivity`), then claim the new file. -/

def switchFile (agentId : Nat) (newFilePath : String) (now : Nat) (s : OwnState) : OwnState :=
  let s' :=
    match alookup s.watchedFiles agentId with
    | some oldFile =>
        { s with
          claimedFiles := s.claimedFiles.erase oldFile,
          knownFilesAtLaunch :=
            match alookup s.knownFilesAtLaunch agentId with
            | some known => aset s.knownFilesAtLaunch agentId (sinsert oldFile known)
            | none => s.knownFilesAtLaunch }
    | none => s
  claimFile agentId newFilePath now s'

/-- The `stopWatching` (lines 751-786), ownership fields: release the watched file
and drop every per-agent entry. -/

def stopWatching (agentId : Nat) (s : OwnState) : OwnState :=
  { watchedFiles := adel s.watchedFiles agentId,
    claimedFiles :=
      match alookup s.watchedFiles agentId with
      | some file => s.claimedFiles.erase file
      | none => s.claimedFiles,
    knownFilesAtLaunch := adel s.knownFilesAtLaunch agentId,
    lastDataTime := adel s.lastDataTime agentId,
    fileOffsets := adel s.fileOffsets agentId,
    lineBuffers := adel s.lineBuffers agentId,
    agentProjectDirs := adel s.agentProjectDirs agentId,
    agentSessionIds := adel s.agentSessionIds agentId }

/-- What `scanForNewFile` observes of the filesystem during one invocation:
`Date.now()`, `fs.existsSync`, and the `.jsonl` listing of a directory
(full paths with `mtimeMs`). -/

structure ScanEnv where
  now : Nat
  existsFile : String → Bool
  listDir : String → List (String × Nat)

/-- The `.jsonl` files of the project directory that are neither in the
agent's known-at-launch set nor claimed (`unclaimed`, lines 481-482). -/

def unclaimedFiles (env : ScanEnv) (agentId : Nat) (projectDir : String)
    (s : OwnState) : List (String × Nat) :=
  (env.listDir projectDir).filter fun p =>
    decide (p.1 ∉ (alookup s.knownFilesAtLaunch agentId).getD [] ∧
      p.1 ∉ s.claimedFiles)

/-- The candidate of the generic scan: sort the unclaimed files by mtime
descending and take the first (lines 485-490). -/

def newestCandidate (env : ScanEnv) (agentId : Nat) (projectDir : String)
    (s : OwnState) : String :=
  (((unclaimedFiles env agentId projectDir s).insertionSort
      fun p q => q.2 ≤ p.2).headD ("", 0)).1

/-- Phase 2 of `scanForNewFile` (lines 473-518): generic scanning for `/clear`
file switches and adopted terminals.  An agent with no current file claims the
newest unclaimed file; an agent with a (stale) current file defers when some
other agent of the same project directory with a watched file is also stale
and has a strictly more recent `lastDataTime`, and otherwise switches. -/

def scanPhase2 (env : ScanEnv) (agentId : Nat) (projectDir : String)
    (s : OwnState) : OwnState :=
  if unclaimedFiles env agentId projectDir s = [] then s
  else
    match alookup s.watchedFiles agentId with
    | none => claimFile agentId (newestCandidate env agentId projectDir s) env.now s
    | some _ =>
      if env.now - (alookup s.lastDataTime agentId).getD 0 ≤ 3000 then s
      else if s.agentProjectDirs.any fun q => decide
          (q.1 ≠ agentId ∧ q.2 = projectDir ∧ (alookup s.watchedFiles q.1).isSome ∧
            env.now - ((alookup s.lastDataTime q.1).getD 0) > 3000 ∧
            ((alookup s.lastDataTime q.1).getD 0) > (alookup s.lastDataTime agentId).getD 0)
        then s
      else switchFile agentId (newestCandidate env agentId projectDir s) env.now s

/-- The `scanForNewFile` (lines 443-518).  Phase 1: deterministic session-id
lookup, claiming `projectDir/sessionId.jsonl` as soon as it exists, and
skipping the generic scan while still unbound; once bound, fall through to
Phase 2 only when the current file has been stale for more than 3s. -/

def scanForNewFile (env : ScanEnv) (agentId : Nat) (s : OwnState) : OwnState :=
  match alookup s.agentProjectDirs agentId with
  | none => s
  | some projectDir =>
    match alookup s.agentSessionIds agentId with
    | some sessionId =>
      match alookup s.watchedFiles agentId with
      | none =>
        if env.existsFile (projectDir ++ "/" ++ sessionId ++ ".jsonl") then
          claimFile agentId (projectDir ++ "/" ++ sessionId ++ ".jsonl") env.now s
        else s
      | some _ =>
        if env.now - (alookup s.lastDataTime agentId).getD 0 ≤ 3000 then s
        else scanPhase2 env agentId projectDir s
    | none => scanPhase2 env agentId projectDir s

/-! ## The standalone server's `SessionScanner` (src/unnamed/part_001) -/

structure ClusterNode where
  name : String
  host : String
  isLocal : Bool
deriving DecidableEq, Repr

structure ScannerState where
  knownFiles : List String
  initialScanDone : Bool
deriving DecidableEq, Repr

def initScannerState : ScannerState := ⟨[], false⟩

/-- The key stored in `knownFiles`: `` `${node}:${file}` ``. -/

def scannerKey (nodeName file : String) : String := nodeName ++ ":" ++ file

/-- One file visit of `scanLocal` (lines 101-118): skip if known, otherwise
remember the key first, then on the initial scan drop files older than the
activity window, else emit the discovery.  Emissions are `(node.name, path)`;
the `projectDir`/`projectName` fields of `SessionInfo` are derived per-file
display data (the derivation is `projectNameOf` below) and play no part in the
discovery decision. -/

def scanLocalFile (now threshold : Nat) (node : ClusterNode)
    (st : ScannerState × List (String × String)) (p : String × Nat) :
    ScannerState × List (String × String) :=
  if scannerKey node.name p.1 ∈ st.1.knownFiles then st
  else
    if ¬ st.1.initialScanDone ∧ now - p.2 > threshold * 60 * 1000 then
      ({ st.1 with knownFiles := sinsert (scannerKey node.name p.1) st.1.knownFiles },
        st.2)
    else
      ({ st.1 with knownFiles := sinsert (scannerKey node.name p.1) st.1.knownFiles },
        st.2 ++ [(node.name, p.1)])

/-- One project directory of `scanLocal`. -/

def scanLocalDir (now threshold : Nat) (node : ClusterNode)
    (st : ScannerState × List (String × String)) (files : List (String × Nat)) :
    ScannerState × List (String × String) :=
  files.foldl (scanLocalFile now threshold node) st

/-- The `scanLocal` (lines 84-120): every project directory under
`~/.claude/projects`, each giving its `.jsonl` files with mtimes. -/

def scanLocal (now threshold : Nat) (node : ClusterNode)
    (dirs : List (List (String × Nat)))
    (st : ScannerState × List (String × String)) :
    ScannerState × List (String × String) :=
  dirs.foldl (scanLocalDir now threshold node) st

/-- The known-check-and-emit body of the `scanRemote` callback. -/

def scanRemoteFile (node : ClusterNode)
    (st : ScannerState × List (String × String)) (p : String × Nat) :
    ScannerState × List (String × String) :=
  if scannerKey node.name p.1 ∈ st.1.knownFiles then st
  else
    ({ st.1 with knownFiles := sinsert (scannerKey node.name p.1) st.1.knownFiles },
      st.2 ++ [(node.name, p.1)])

/-- The `scanRemote` (lines 122-149): the ssh command runs
`find ~/.claude/projects -name "*.jsonl" -mmin -threshold`, so the listing is
filtered to the activity window at the source on every scan; the callback then
applies the known-file check and emits.  `remoteFiles` is the full remote
directory content; the filter models `find -mmin`. -/

def scanRemote (now threshold : Nat) (node : ClusterNode)
    (remoteFiles : List (String × Nat))
    (st : ScannerState × List (String × String)) :
    ScannerState × List (String × String) :=
  (remoteFiles.filter fun p => decide (now - p.2 < threshold * 60 * 1000)).foldl
    (scanRemoteFile node) st

/-- The `markKnown` (lines 69-71). -/

def markKnown (node file : String) (s : ScannerState) : ScannerState :=
  { s with knownFiles := sinsert (scannerKey node file) s.knownFiles }

/-- The scanner's possible steps over its lifetime: a local per-node scan, a
remote scan callback, an external `markKnown`, and the `initialScanDone := true`
assignment at the end of the first `scan()`. -/

inductive ScanOp
  | localScan (node : ClusterNode) (now threshold : Nat) (dirs : List (List (String × Nat)))
  | remoteScan (node : ClusterNode) (now threshold : Nat) (files : List (String × Nat))
  | mark (node file : String)
  | finishScan

def applyScanOp (st : ScannerState × List (String × String)) :
    ScanOp → ScannerState × List (String × String)
  | .localScan node now threshold dirs => scanLocal now threshold node dirs st
  | .remoteScan node now threshold files => scanRemote now threshold node files st
  | .mark node file => (markKnown node file st.1, st.2)
  | .finishScan => ({ st.1 with initialScanDone := true }, st.2)

def runScanOps (ops : List ScanOp) (st : ScannerState × List (String × String)) :
    ScannerState × List (String × String) :=
  ops.foldl applyScanOp st

/-! ## The transcript activity reducer (`processTranscriptLine`)

A parsed JSONL record, as the discriminations of src/extension.ts lines
637-727 see it.  JavaScript truthiness of `block.id` / `block.tool_use_id`
identifies a missing id with the empty string. -/

structure ToolInput where
  file_path : Option String
  command : Option String
deriving DecidableEq, Repr

inductive AsstBlock
  | tool_use (id : String) (name : String) (input : ToolInput)
  | text
  | thinking
  | otherBlock
deriving DecidableEq, Repr

inductive UserBlock
  | tool_result (tool_use_id : String)
  | otherUserBlock
deriving DecidableEq, Repr

inductive UserContent
  | str (s : String)
  | arr (blocks : List UserBlock)
  | otherContent
deriving DecidableEq, Repr

inductive TranscriptRecord
  | assistant (content : Option (List AsstBlock))
  | user (content : UserContent)
  | system (subtype : String)
  | otherRecord
  | malformed
deriving DecidableEq, Repr

/-- The `path.basename` for the posix paths the transcripts carry. -/

def basename (p : String) : String := (p.splitOn "/").getLastD ""

/-- The `formatToolStatus` (lines 729-749). -/

def formatToolStatus (toolName : String) (input : ToolInput) : String :=
  let base : Option String → String := fun p =>
    match p with
    | some s => basename s
    | none => ""
  match toolName with
  | "Read" => "Reading " ++ base input.file_path
  | "Edit" => "Editing " ++ base input.file_path
  | "Write" => "Writing " ++ base input.file_path
  | "Bash" =>
    let cmd := input.command.getD ""
    "Running: " ++ (if cmd.length > 30 then cmd.take 30 ++ "…" else cmd)
  | "Glob" => "Searching files"
  | "Grep" => "Searching code"
  | "WebFetch" => "Fetching web content"
  | "WebSearch" => "Searching the web"
  | "Task" => "Running subtask"
  | "AskUserQuestion" => "Waiting for your answer"
  | "EnterPlanMode" => "Planning"
  | "NotebookEdit" => "Editing notebook"
  | _ => "Using " ++ toolName

/-- Per-agent activity state: the agent's entries of `activeToolIds`,
`activeToolStatuses`, `waitingTimers`, `agentWaitingStatus`, plus the
`agentToolDone` notifications scheduled by `setTimeout(..., 300)` and not yet
fired (`pendingDones`, in scheduling order: once scheduled they fire
unconditionally). -/

structure AgentActivity where
  activeToolIds : List String
  activeToolStatuses : List (String × String)
  waitingTimer : Option Nat
  waitingStatus : Bool
  pendingDones : List String
deriving DecidableEq, Repr

def initAgentActivity : AgentActivity := ⟨[], [], none, false, []⟩

/-- Webview notifications posted by the watcher. -/

inductive Msg
  | agentToolStart (toolId status : String)
  | agentToolDone (toolId : String)
  | agentToolsClear
  | agentStatusActive
  | agentStatusWaiting
deriving DecidableEq, Repr

/-- The `cancelWaitingTimer` (lines 615-621). -/

def cancelWaitingTimer (s : AgentActivity) : AgentActivity :=
  { s with waitingTimer := none }

/-- The `startWaitingTimer` (lines 623-635): cancel any pending timer, then arm a
fresh one with the given delay. -/

def startWaitingTimer (delayMs : Nat) (s : AgentActivity) : AgentActivity :=
  { cancelWaitingTimer s with waitingTimer := some delayMs }

/-- The armed waiting timer fires: mark waiting and notify (body of the
`setTimeout` in `startWaitingTimer`). -/

def fireWaitingTimer (s : AgentActivity) : AgentActivity × List Msg :=
  match s.waitingTimer with
  | some _ => ({ s with waitingTimer := none, waitingStatus := true }, [.agentStatusWaiting])
  | none => (s, [])

/-- The oldest scheduled `agentToolDone` timeout fires. -/

def fireNextToolDone (s : AgentActivity) : AgentActivity × List Msg :=
  match s.pendingDones with
  | [] => (s, [])
  | t :: ts => ({ s with pendingDones := ts }, [.agentToolDone t])

/-- The `clearAgentActivity` (lines 607-613). -/

def clearAgentActivity (s : AgentActivity) : AgentActivity × List Msg :=
  ({ s with activeToolIds := [], activeToolStatuses := [], waitingStatus := false },
    [.agentToolsClear, .agentStatusActive])

def isToolUse : AsstBlock → Bool
  | .tool_use _ _ _ => true
  | _ => false

def isTextBlock : AsstBlock → Bool
  | .text => true
  | _ => false

def isToolResult : UserBlock → Bool
  | .tool_result _ => true
  | _ => false

/-- The `tool_use` loop body (lines 652-669). -/

def processToolUseBlock (acc : AgentActivity × List Msg) (b : AsstBlock) :
    AgentActivity × List Msg :=
  match b with
  | .tool_use id name input =>
    if id ≠ "" then
      let status := formatToolStatus name input
      ({ acc.1 with
          activeToolIds := sinsert id acc.1.activeToolIds,
          activeToolStatuses := aset acc.1.activeToolStatuses id status },
        acc.2 ++ [.agentToolStart id status])
    else acc
  | _ => acc

/-- The `tool_result` loop body (lines 688-701): delete from the active sets
(a no-op when the id is unknown) and schedule the 300ms `agentToolDone`. -/

def processToolResultBlock (acc : AgentActivity × List Msg) (b : UserBlock) :
    AgentActivity × List Msg :=
  match b with
  | .tool_result id =>
    if id ≠ "" then
      ({ acc.1 with
          activeToolIds := acc.1.activeToolIds.erase id,
          activeToolStatuses := adel acc.1.activeToolStatuses id,
          pendingDones := acc.1.pendingDones ++ [id] },
        acc.2)
    else acc
  | _ => acc

/-- The `processTranscriptLine` (lines 637-727). -/

def processTranscriptLine (r : TranscriptRecord) (s : AgentActivity) :
    AgentActivity × List Msg :=
  match r with
  | .assistant (some blocks) =>
    if blocks.any isToolUse then
      blocks.foldl processToolUseBlock
        ({ cancelWaitingTimer s with waitingStatus := false }, [.agentStatusActive])
    else if blocks.any isTextBlock then (startWaitingTimer 2000 s, [])
    else (s, [])
  | .assistant none => (s, [])
  | .user (.arr blocks) =>
    if blocks.any isToolResult then blocks.foldl processToolResultBlock (s, [])
    else clearAgentActivity (cancelWaitingTimer s)
  | .user (.str c) =>
    -- `content.trim()` is truthy iff the string has a non-whitespace char
    if isNonBlank c.data then clearAgentActivity (cancelWaitingTimer s)
    else (s, [])
  | .user .otherContent => (s, [])
  | .system subtype =>
    if subtype = "turn_duration" then
      ({ cancelWaitingTimer s with waitingStatus := true }, [.agentStatusWaiting])
    else (s, [])
  | .otherRecord => (s, [])
  | .malformed => (s, [])

/-! ## The project-path encoding and its decoding -/

/-- The directory-name normalization inside `getProjectDirPath`
(src/extension.ts lines 408-414): `workspacePath.replace(/[:\\/]/g, '-')`. -/

def getProjectDirName (p : List Char) : List Char :=
  p.map fun c => if c = ':' ∨ c = '\\' ∨ c = '/' then '-' else c

/-- First half of the scanner's decoding: replace one leading dash by a
slash (the `replace` with the anchored single-dash pattern). -/

def replaceLeadingDash (s : List Char) : List Char :=
  match s with
  | c :: rest => if c = '-' then '/' :: rest else c :: rest
  | [] => []

/-- The scanner's `projectName` derivation (src/unnamed/part_001 line 115):
replace a leading dash by a slash, then replace every remaining dash by a
slash (the two chained `replace` calls on `dirName`). -/

def projectNameOf (dirName : List Char) : List Char :=
  (replaceLeadingDash dirName).map fun c => if c = '-' then '/' else c

/-! ## The standalone server's local agent creation -/

structure ServerAgentInit where
  fileOffset : Nat
  lineBuffer : List Char
deriving DecidableEq, Repr

/-- The `createLocalAgent` (src/unnamed/part_001 lines 433-457), tailing fields:
the agent record is created with `fileOffset: 0, lineBuffer: ''`, then skips
to the end of the file: `agent.fileOffset = stat.size` when `statSync`
succeeds; the `catch` leaves the offset at 0. -/

def createLocalAgent (stat : Option (List Char)) : ServerAgentInit :=
  { fileOffset :=
      match stat with
      | some content => content.length
      | none => 0,
    lineBuffer := [] }

/-! ## Claim C1: the claimed-files invariant -/

/-- The three ownership operations of the extension. -/

inductive OwnOp
  | claim (agentId : Nat) (filePath : String) (now : Nat)
  | switch (agentId : Nat) (filePath : String) (now : Nat)
  | stop (agentId : Nat)

def applyOwnOp (s : OwnState) : OwnOp → OwnState
  | .claim a f now => claimFile a f now s
  | .switch a f now => switchFile a f now s
  | .stop a => stopWatching a s

def runOwnOps (ops : List OwnOp) (s : OwnState) : OwnState :=
  ops.foldl applyOwnOp s

/-- Agent `a` currently watches `f` (`watchedFiles.get(a) === f`). -/

def ownsFile (s : OwnState) (a : Nat) (f : String) : Prop :=
  alookup s.watchedFiles a = some f

/-- The claimed invariant: a path is in `claimedFiles` iff exactly one live
agent has it as its current watched file. -/

def claimedInv (s : OwnState) : Prop :=
  ∀ f : String, f ∈ s.claimedFiles ↔ ∃! a : Nat, ownsFile s a f

/-- The call discipline the Phase 2 generic scan enforces: `claimFile` only
for an agent with no current file and a path not already claimed, `switchFile`
only for an agent with a current file and a path not already claimed
(the Phase 1 deterministic lookup does not check `claimedFiles`). -/

def guardedOps : OwnState → List OwnOp → Bool
  | _, [] => true
  | s, op :: ops =>
    (match op with
      | .claim a f _ => decide (f ∉ s.claimedFiles) && (alookup s.watchedFiles a).isNone
      | .switch a f _ => decide (f ∉ s.claimedFiles) && (alookup s.watchedFiles a).isSome
      | .stop _ => true)
      && guardedOps (applyOwnOp s op) ops

/-- Inductive strengthening of `claimedInv`. -/

def strongInv (s : OwnState) : Prop :=
  s.claimedFiles.Nodup ∧
  (∀ a f, ownsFile s a f → f ∈ s.claimedFiles) ∧
  (∀ f ∈ s.claimedFiles, ∃! a : Nat, ownsFile s a f)

/-- The scanner's emission soundness invariant: emitted keys are pairwise
distinct and all recorded in `knownFiles`. -/

def scanInv (st : ScannerState × List (String × String)) : Prop :=
  (st.2.map fun e => scannerKey e.1 e.2).Nodup ∧
  ∀ e ∈ st.2, scannerKey e.1 e.2 ∈ st.1.knownFiles

/-! ## Theorems -/

theorem alookup_aset_self {κ α : Type} [DecidableEq κ] (m : List (κ × α)) (k : κ) (v : α) :
    alookup (aset m k v) k = some v := by
  induction m with
  | nil => simp [alookup, aset]
  | cons p m ih =>
    obtain ⟨k', w⟩ := p
    by_cases h : k' = k
    · simp [aset, alookup, h]
    · simp [aset, alookup, h, ih]

theorem alookup_aset_ne {κ α : Type} [DecidableEq κ] (m : List (κ × α)) (k k' : κ) (v : α)
    (h : k' ≠ k) : alookup (aset m k v) k' = alookup m k' := by
  induction m with
  | nil => simp [alookup, aset, Ne.symm h]
  | cons p m ih =>
    obtain ⟨k'', w⟩ := p
    by_cases hk : k'' = k
    · subst hk
      simp [aset, alookup, Ne.symm h]
    · by_cases hk' : k'' = k'
      · subst hk'
        simp [aset, alookup, h]
      · simp [aset, alookup, hk, hk', ih]

theorem alookup_adel_self {κ α : Type} [DecidableEq κ] (m : List (κ × α)) (k : κ) :
    alookup (adel m k) k = none := by
  induction m with
  | nil => simp [alookup, adel]
  | cons p m ih =>
    obtain ⟨k', w⟩ := p
    by_cases h : k' = k
    · simp [adel, h, ih]
    · simp [adel, alookup, h, ih]

theorem alookup_adel_ne {κ α : Type} [DecidableEq κ] (m : List (κ × α)) (k k' : κ)
    (h : k' ≠ k) : alookup (adel m k) k' = alookup m k' := by
  induction m with
  | nil => simp [adel]
  | cons p m ih =>
    obtain ⟨k'', w⟩ := p
    by_cases hk : k'' = k
    · subst hk
      simp [adel, alookup, Ne.symm h, ih]
    · simp [adel, alookup, hk, ih]

theorem alookup_mem {κ α : Type} [DecidableEq κ] {m : List (κ × α)} {k : κ} {v : α}
    (h : alookup m k = some v) : (k, v) ∈ m := by
  induction m with
  | nil => simp [alookup] at h
  | cons p m ih =>
    obtain ⟨k', w⟩ := p
    by_cases hk : k' = k
    · subst hk
      simp [alookup] at h
      simp [h]
    · simp [alookup, hk] at h
      exact List.mem_cons_of_mem _ (ih h)

theorem mem_sinsert {α : Type} [DecidableEq α] (x y : α) (l : List α) :
    x ∈ sinsert y l ↔ x = y ∨ x ∈ l := by
  unfold sinsert
  by_cases h : y ∈ l
  · simp only [h, if_true]
    constructor
    · exact Or.inr
    · rintro (rfl | hx)
      · exact h
      · exact hx
  · simp [h]

theorem nodup_sinsert {α : Type} [DecidableEq α] (x : α) {l : List α} (h : l.Nodup) :
    (sinsert x l).Nodup := by
  unfold sinsert
  by_cases hx : x ∈ l
  · simpa [hx] using h
  · simp only [hx, if_false]
    exact List.nodup_cons.mpr ⟨hx, h⟩

@[simp] theorem glueHead_nil (pre : List Char) : glueHead pre [] = [pre] := rfl

@[simp] theorem glueHead_cons (pre l : List Char) (ls : List (List Char)) :
    glueHead pre (l :: ls) = (pre ++ l) :: ls := rfl

@[simp] theorem lastChunk_nil : lastChunk [] = [] := rfl

@[simp] theorem lastChunk_single (l : List Char) : lastChunk [l] = l := rfl

@[simp] theorem lastChunk_cons_cons (l l' : List Char) (ls : List (List Char)) :
    lastChunk (l :: l' :: ls) = lastChunk (l' :: ls) := rfl

@[simp] theorem initChunks_nil : initChunks [] = [] := rfl

@[simp] theorem initChunks_single (l : List Char) : initChunks [l] = [] := rfl

@[simp] theorem initChunks_cons_cons (l l' : List Char) (ls : List (List Char)) :
    initChunks (l :: l' :: ls) = l :: initChunks (l' :: ls) := rfl

@[simp] theorem joinNl_nil : joinNl [] = [] := rfl

@[simp] theorem joinNl_single (l : List Char) : joinNl [l] = l := rfl

@[simp] theorem joinNl_cons_cons (l l' : List Char) (ls : List (List Char)) :
    joinNl (l :: l' :: ls) = l ++ '\n' :: joinNl (l' :: ls) := rfl

@[simp] theorem splitNl_nil : splitNl [] = [[]] := rfl

theorem splitNl_cons_nl (cs : List Char) : splitNl ('\n' :: cs) = [] :: splitNl cs := by
  simp [splitNl]

theorem splitNl_cons_ne {c : Char} (h : c ≠ '\n') (cs : List Char) :
    splitNl (c :: cs) = glueHead [c] (splitNl cs) := by
  simp [splitNl, h]

theorem splitNl_ne_nil (l : List Char) : splitNl l ≠ [] := by
  induction l with
  | nil => simp
  | cons c cs ih =>
    by_cases h : c = '\n'
    · subst h; simp [splitNl_cons_nl]
    · rw [splitNl_cons_ne h]
      cases splitNl cs <;> simp

theorem initChunks_append_lastChunk {ls : List (List Char)} (h : ls ≠ []) :
    initChunks ls ++ [lastChunk ls] = ls := by
  induction ls with
  | nil => exact absurd rfl h
  | cons l ls ih =>
    cases ls with
    | nil => rfl
    | cons l' ls' => simpa using ih (by simp)

theorem joinNl_splitNl (l : List Char) : joinNl (splitNl l) = l := by
  induction l with
  | nil => rfl
  | cons c cs ih =>
    by_cases h : c = '\n'
    · subst h
      rw [splitNl_cons_nl]
      cases hs : splitNl cs with
      | nil => exact absurd hs (splitNl_ne_nil cs)
      | cons x xs =>
        rw [hs] at ih
        simpa using ih
    · rw [splitNl_cons_ne h]
      cases hs : splitNl cs with
      | nil => exact absurd hs (splitNl_ne_nil cs)
      | cons x xs =>
        rw [hs] at ih
        cases xs with
        | nil => simpa using ih
        | cons y ys =>
          simp only [glueHead_cons, joinNl_cons_cons] at ih ⊢
          simp [ih]

theorem not_mem_nl_of_mem_splitNl {l : List Char} {x : List Char}
    (hx : x ∈ splitNl l) : '\n' ∉ x := by
  induction l generalizing x with
  | nil =>
    simp at hx
    simp [hx]
  | cons c cs ih =>
    by_cases h : c = '\n'
    · subst h
      rw [splitNl_cons_nl] at hx
      rcases List.mem_cons.mp hx with rfl | hx
      · simp
      · exact ih hx
    · rw [splitNl_cons_ne h] at hx
      cases hs : splitNl cs with
      | nil => exact absurd hs (splitNl_ne_nil cs)
      | cons y ys =>
        rw [hs] at hx
        simp only [glueHead_cons, List.mem_cons] at hx
        rcases hx with rfl | hx
        · intro hmem
          rcases List.mem_cons.mp hmem with heq | hmem
          · exact h heq.symm
          · exact ih (hs ▸ List.mem_cons_self y ys) hmem
        · exact ih (hs ▸ List.mem_cons_of_mem y hx)

theorem splitNl_of_no_nl {l : List Char} (h : '\n' ∉ l) : splitNl l = [l] := by
  induction l with
  | nil => rfl
  | cons c cs ih =>
    simp only [List.mem_cons, not_or] at h
    rw [splitNl_cons_ne (fun hc => h.1 hc.symm), ih h.2]
    rfl

/-- Splitting a concatenation: all chunks of `a` but the last, then the chunks
of `b` with the last chunk of `a` glued onto the first chunk of `b`. -/

theorem splitNl_append (a b : List Char) :
    splitNl (a ++ b) =
      initChunks (splitNl a) ++ glueHead (lastChunk (splitNl a)) (splitNl b) := by
  induction a with
  | nil =>
    cases hb : splitNl b with
    | nil => exact absurd hb (splitNl_ne_nil b)
    | cons z zs => simp [hb]
  | cons c cs ih =>
    by_cases h : c = '\n'
    · subst h
      rw [List.cons_append, splitNl_cons_nl, splitNl_cons_nl, ih]
      cases hs : splitNl cs with
      | nil => exact absurd hs (splitNl_ne_nil cs)
      | cons x xs => simp
    · rw [List.cons_append, splitNl_cons_ne h, splitNl_cons_ne h, ih]
      cases hs : splitNl cs with
      | nil => exact absurd hs (splitNl_ne_nil cs)
      | cons x xs =>
        cases xs with
        | nil =>
          cases hb : splitNl b with
          | nil => exact absurd hb (splitNl_ne_nil b)
          | cons z zs => simp
        | cons y ys => simp

theorem lastChunk_mem {ls : List (List Char)} (h : ls ≠ []) : lastChunk ls ∈ ls := by
  induction ls with
  | nil => exact absurd rfl h
  | cons l ls ih =>
    cases ls with
    | nil => simp
    | cons l' ls' => simp [ih]

theorem lastChunk_append (A : List (List Char)) {B : List (List Char)} (h : B ≠ []) :
    lastChunk (A ++ B) = lastChunk B := by
  induction A with
  | nil => rfl
  | cons l A ih =>
    cases hA : A ++ B with
    | nil =>
      rcases List.append_eq_nil.mp hA with ⟨-, hB⟩
      exact absurd hB h
    | cons x xs =>
      rw [List.cons_append, hA, lastChunk_cons_cons, ← hA, ih]

theorem initChunks_append (A : List (List Char)) {B : List (List Char)} (h : B ≠ []) :
    initChunks (A ++ B) = A ++ initChunks B := by
  induction A with
  | nil => rfl
  | cons l A ih =>
    cases hA : A ++ B with
    | nil =>
      rcases List.append_eq_nil.mp hA with ⟨-, hB⟩
      exact absurd hB h
    | cons x xs =>
      rw [List.cons_append, hA, initChunks_cons_cons, ← hA, ih, List.cons_append]

theorem fileWatcherRead_noop {content : List Char} {st : TailState}
    (h : content.length ≤ st.offset) : fileWatcherRead content st = (st, []) := by
  unfold fileWatcherRead
  rw [if_pos h]

theorem fileWatcherRead_gt {content : List Char} {st : TailState}
    (h : st.offset < content.length) :
    fileWatcherRead content st
      = (⟨content.length, lastChunk (splitNl (st.buffer ++ content.drop st.offset))⟩,
          initChunks (splitNl (st.buffer ++ content.drop st.offset))) := by
  unfold fileWatcherRead
  rw [if_neg (by omega)]

theorem readNewLines_noop {content : List Char} {now : Nat} {st : ExtTailState}
    (h : content.length ≤ st.offset) : readNewLines content now st = (st, []) := by
  unfold readNewLines
  rw [if_pos h]

theorem readNewLines_stamp_gt {content : List Char} {now : Nat} {st : ExtTailState}
    (h : st.offset < content.length) :
    readNewLines content now st
      = (⟨content.length, lastChunk (splitNl (st.buffer ++ content.drop st.offset)), now⟩,
          (initChunks (splitNl (st.buffer ++ content.drop st.offset))).filter isNonBlank) := by
  unfold readNewLines
  rw [if_neg (by omega)]

theorem readNewLines_proj (content : List Char) (now : Nat) (st : ExtTailState) :
    tailProj (readNewLines content now st).1 = (fileWatcherRead content (tailProj st)).1 ∧
    (readNewLines content now st).2
      = (fileWatcherRead content (tailProj st)).2.filter isNonBlank := by
  by_cases h : content.length ≤ st.offset
  · rw [readNewLines_noop h, @fileWatcherRead_noop content (tailProj st) h]
    exact ⟨rfl, rfl⟩
  · push_neg at h
    rw [readNewLines_stamp_gt h, @fileWatcherRead_gt content (tailProj st) h]
    exact ⟨rfl, rfl⟩

theorem fileWatcherRead_offset_le {content : List Char} {st : TailState}
    (h : st.offset ≤ content.length) :
    (fileWatcherRead content st).1.offset ≤ content.length := by
  by_cases hc : content.length ≤ st.offset
  · rw [fileWatcherRead_noop hc]
    exact h
  · rw [fileWatcherRead_gt (by omega)]

/-- Composing one read with a read of an extended file equals the single read
of the extended file: the offset bookkeeping delivers every appended byte
exactly once and in order. -/

theorem fileWatcherRead_comp (c t : List Char) (st : TailState) :
    ((fileWatcherRead (c ++ t) (fileWatcherRead c st).1).1,
      (fileWatcherRead c st).2 ++ (fileWatcherRead (c ++ t) (fileWatcherRead c st).1).2)
      = fileWatcherRead (c ++ t) st := by
  by_cases h₁ : c.length ≤ st.offset
  · rw [fileWatcherRead_noop h₁]
    simp
  · push_neg at h₁
    rw [fileWatcherRead_gt h₁]
    cases t with
    | nil =>
      rw [List.append_nil]
      dsimp only
      rw [@fileWatcherRead_noop c
        ⟨c.length, lastChunk (splitNl (st.buffer ++ c.drop st.offset))⟩ (Nat.le_refl _)]
      rw [fileWatcherRead_gt h₁]
      simp
    | cons t0 ts =>
      have hlt : c.length < (c ++ t0 :: ts).length := by simp
      dsimp only
      rw [@fileWatcherRead_gt (c ++ t0 :: ts)
        ⟨c.length, lastChunk (splitNl (st.buffer ++ c.drop st.offset))⟩ hlt]
      rw [fileWatcherRead_gt (by omega)]
      have hbuf : '\n' ∉ lastChunk (splitNl (st.buffer ++ c.drop st.offset)) :=
        not_mem_nl_of_mem_splitNl (lastChunk_mem (splitNl_ne_nil _))
      have hdrop₁ : (c ++ t0 :: ts).drop c.length = t0 :: ts := List.drop_left c (t0 :: ts)
      have hdrop₂ : (c ++ t0 :: ts).drop st.offset = c.drop st.offset ++ t0 :: ts := by
        rw [List.drop_append_eq_append_drop]
        have h0 : st.offset - c.length = 0 := by omega
        simp [h0]
      have hsplit₂ :
          splitNl (lastChunk (splitNl (st.buffer ++ c.drop st.offset)) ++ t0 :: ts)
            = glueHead (lastChunk (splitNl (st.buffer ++ c.drop st.offset)))
                (splitNl (t0 :: ts)) := by
        rw [splitNl_append, splitNl_of_no_nl hbuf]
        simp
      have hne : glueHead (lastChunk (splitNl (st.buffer ++ c.drop st.offset)))
          (splitNl (t0 :: ts)) ≠ [] := by
        cases splitNl (t0 :: ts) <;> simp [glueHead]
      have hsplit :
          splitNl (st.buffer ++ (c ++ t0 :: ts).drop st.offset)
            = initChunks (splitNl (st.buffer ++ c.drop st.offset))
                ++ glueHead (lastChunk (splitNl (st.buffer ++ c.drop st.offset)))
                    (splitNl (t0 :: ts)) := by
        rw [hdrop₂, ← List.append_assoc, splitNl_append]
      simp only [hdrop₁, hsplit, hsplit₂]
      rw [lastChunk_append _ hne, initChunks_append _ hne]

theorem runFileWatcherReads_cons (c : List Char) (cs : List (List Char)) (st : TailState) :
    runFileWatcherReads (c :: cs) st
      = ((runFileWatcherReads cs (fileWatcherRead c st).1).1,
          (fileWatcherRead c st).2 ++ (runFileWatcherReads cs (fileWatcherRead c st).1).2) := rfl

theorem runReadNewLines_sim (ps : List (List Char × Nat)) (st : ExtTailState) :
    tailProj (runReadNewLines ps st).1
        = (runFileWatcherReads (ps.map Prod.fst) (tailProj st)).1 ∧
    (runReadNewLines ps st).2
        = (runFileWatcherReads (ps.map Prod.fst) (tailProj st)).2.filter isNonBlank := by
  induction ps generalizing st with
  | nil => exact ⟨rfl, rfl⟩
  | cons p ps ih =>
    obtain ⟨c, n⟩ := p
    have h1 := readNewLines_proj c n st
    have h2 := ih (readNewLines c n st).1
    constructor
    · show tailProj (runReadNewLines ps (readNewLines c n st).1).1
          = (runFileWatcherReads (List.map Prod.fst ps) (fileWatcherRead c (tailProj st)).1).1
      rw [h2.1, h1.1]
    · show (readNewLines c n st).2 ++ (runReadNewLines ps (readNewLines c n st).1).2
          = ((fileWatcherRead c (tailProj st)).2
              ++ (runFileWatcherReads (List.map Prod.fst ps)
                    (fileWatcherRead c (tailProj st)).1).2).filter isNonBlank
      rw [List.filter_append, h1.2, h2.2, h1.1]

theorem chain_isPre_last {c : List Char} {cs : List (List Char)}
    (h : List.Chain' (fun a b => a <+: b) (c :: cs)) : c <+: lastChunk (c :: cs) := by
  induction cs generalizing c with
  | nil => exact ⟨[], List.append_nil c⟩
  | cons c' cs' ih =>
    obtain ⟨hcc', h'⟩ := List.chain'_cons.mp h
    rw [lastChunk_cons_cons]
    exact hcc'.trans (ih h')

/-- A monotone sequence of reads is equivalent to a single read of the final
content: no line is delivered twice, none is skipped. -/

theorem runFileWatcherReads_eq_single (cs : List (List Char)) :
    ∀ (c : List Char) (st : TailState),
      List.Chain' (fun a b => a <+: b) (c :: cs) → st.offset ≤ c.length →
      runFileWatcherReads (c :: cs) st = fileWatcherRead (lastChunk (c :: cs)) st := by
  induction cs with
  | nil =>
    intro c st _ _
    rw [runFileWatcherReads_cons]
    simp [runFileWatcherReads]
  | cons c' cs' ih =>
    intro c st h hoff
    obtain ⟨hcc', h'⟩ := List.chain'_cons.mp h
    have hoff' : (fileWatcherRead c st).1.offset ≤ c'.length :=
      le_trans (fileWatcherRead_offset_le hoff) hcc'.length_le
    have hlast : c <+: lastChunk (c :: c' :: cs') := chain_isPre_last h
    rw [runFileWatcherReads_cons]
    rw [show runFileWatcherReads (c' :: cs') (fileWatcherRead c st).1
          = fileWatcherRead (lastChunk (c' :: cs')) (fileWatcherRead c st).1 from
        ih c' (fileWatcherRead c st).1 h' hoff']
    rw [lastChunk_cons_cons] at hlast
    obtain ⟨t, ht⟩ := hlast
    rw [lastChunk_cons_cons, ← ht]
    exact fileWatcherRead_comp c t st

theorem strongInv_claimedInv {s : OwnState} (h : strongInv s) : claimedInv s := by
  obtain ⟨-, h1, h2⟩ := h
  intro f
  constructor
  · exact h2 f
  · rintro ⟨a, ha, -⟩
    exact h1 a f ha

theorem strongInv_claimFile {s : OwnState} {a : Nat} {f : String} {now : Nat}
    (hinv : strongInv s) (hf : f ∉ s.claimedFiles)
    (ha : alookup s.watchedFiles a = none) :
    strongInv (claimFile a f now s) := by
  obtain ⟨hnd, h1, h2⟩ := hinv
  refine ⟨nodup_sinsert f hnd, ?_, ?_⟩
  · intro b g hb
    show g ∈ sinsert f s.claimedFiles
    rw [mem_sinsert]
    unfold ownsFile at hb
    change alookup (aset s.watchedFiles a f) b = some g at hb
    by_cases hba : b = a
    · subst hba
      rw [alookup_aset_self] at hb
      exact Or.inl (Option.some_injective _ hb).symm
    · rw [alookup_aset_ne _ _ _ _ hba] at hb
      exact Or.inr (h1 b g hb)
  · intro g hg
    rw [show (claimFile a f now s).claimedFiles = sinsert f s.claimedFiles from rfl,
      mem_sinsert] at hg
    by_cases hgf : g = f
    · subst hgf
      refine ⟨a, ?_, ?_⟩
      · show alookup (aset s.watchedFiles a g) a = some g
        exact alookup_aset_self _ _ _
      · intro b hb
        change alookup (aset s.watchedFiles a g) b = some g at hb
        by_cases hba : b = a
        · exact hba
        · rw [alookup_aset_ne _ _ _ _ hba] at hb
          exact absurd (h1 b g hb) hf
    · have hgc : g ∈ s.claimedFiles := by
        rcases hg with rfl | hgc
        · exact absurd rfl hgf
        · exact hgc
      obtain ⟨b, hb, hbu⟩ := h2 g hgc
      have hba : b ≠ a := by
        intro hba
        subst hba
        rw [show ownsFile s b g = (alookup s.watchedFiles b = some g) from rfl, ha] at hb
        cases hb
      refine ⟨b, ?_, ?_⟩
      · show alookup (aset s.watchedFiles a f) b = some g
        rw [alookup_aset_ne _ _ _ _ hba]
        exact hb
      · intro c hc
        change alookup (aset s.watchedFiles a f) c = some g at hc
        by_cases hca : c = a
        · subst hca
          rw [alookup_aset_self] at hc
          exact absurd (Option.some_injective _ hc).symm hgf
        · rw [alookup_aset_ne _ _ _ _ hca] at hc
          exact hbu c hc

theorem strongInv_switchFile {s : OwnState} {a : Nat} {f : String} {now : Nat}
    (hinv : strongInv s) (hf : f ∉ s.claimedFiles)
    {old : String} (hold : alookup s.watchedFiles a = some old) :
    strongInv (switchFile a f now s) := by
  obtain ⟨hnd, h1, h2⟩ := hinv
  obtain ⟨b0, hb0, hb0u⟩ := h2 old (h1 a old hold)
  have huniq : ∀ c, ownsFile s c old → c = a :=
    fun c hc => (hb0u c hc).trans (hb0u a hold).symm
  unfold switchFile
  rw [hold]
  refine ⟨nodup_sinsert f (hnd.erase old), ?_, ?_⟩
  · intro b g hb
    change alookup (aset s.watchedFiles a f) b = some g at hb
    show g ∈ sinsert f (s.claimedFiles.erase old)
    rw [mem_sinsert]
    by_cases hba : b = a
    · subst hba
      rw [alookup_aset_self] at hb
      exact Or.inl (Option.some_injective _ hb).symm
    · rw [alookup_aset_ne _ _ _ _ hba] at hb
      have hgc : g ∈ s.claimedFiles := h1 b g hb
      have hgold : g ≠ old := by
        intro hgold
        subst hgold
        exact hba (huniq b hb)
      exact Or.inr ((List.mem_erase_of_ne hgold).mpr hgc)
  · intro g hg
    change g ∈ sinsert f (s.claimedFiles.erase old) at hg
    rw [mem_sinsert] at hg
    by_cases hgf : g = f
    · subst hgf
      refine ⟨a, alookup_aset_self _ _ _, ?_⟩
      intro c hc
      change alookup (aset s.watchedFiles a g) c = some g at hc
      by_cases hca : c = a
      · exact hca
      · rw [alookup_aset_ne _ _ _ _ hca] at hc
        exact absurd (h1 c g hc) hf
    · have hge : g ∈ s.claimedFiles.erase old := by
        rcases hg with rfl | hge
        · exact absurd rfl hgf
        · exact hge
      obtain ⟨hgold, hgc⟩ := (List.Nodup.mem_erase_iff hnd).mp hge
      obtain ⟨b, hb, hbu⟩ := h2 g hgc
      have hba : b ≠ a := by
        intro hba
        subst hba
        rw [show ownsFile s b g = (alookup s.watchedFiles b = some g) from rfl, hold] at hb
        exact hgold (Option.some_injective _ hb).symm
      refine ⟨b, ?_, ?_⟩
      · change alookup (aset s.watchedFiles a f) b = some g
        rw [alookup_aset_ne _ _ _ _ hba]
        exact hb
      · intro c hc
        change alookup (aset s.watchedFiles a f) c = some g at hc
        by_cases hca : c = a
        · subst hca
          rw [alookup_aset_self] at hc
          exact absurd ((Option.some_injective _ hc).symm ▸ hgc) hf
        · rw [alookup_aset_ne _ _ _ _ hca] at hc
          exact hbu c hc

theorem strongInv_stopWatching {s : OwnState} (a : Nat) (hinv : strongInv s) :
    strongInv (stopWatching a s) := by
  obtain ⟨hnd, h1, h2⟩ := hinv
  cases hw : alookup s.watchedFiles a with
  | none =>
    have hstop : (stopWatching a s).claimedFiles = s.claimedFiles := by
      unfold stopWatching
      rw [hw]
    refine ⟨?_, ?_, ?_⟩
    · rw [hstop]; exact hnd
    · intro b g hb
      change alookup (adel s.watchedFiles a) b = some g at hb
      rw [hstop]
      by_cases hba : b = a
      · subst hba
        rw [alookup_adel_self] at hb
        cases hb
      · rw [alookup_adel_ne _ _ _ hba] at hb
        exact h1 b g hb
    · intro g hg
      rw [hstop] at hg
      obtain ⟨b, hb, hbu⟩ := h2 g hg
      have hba : b ≠ a := by
        intro hba
        subst hba
        rw [show ownsFile s b g = (alookup s.watchedFiles b = some g) from rfl, hw] at hb
        cases hb
      refine ⟨b, ?_, ?_⟩
      · change alookup (adel s.watchedFiles a) b = some g
        rw [alookup_adel_ne _ _ _ hba]
        exact hb
      · intro c hc
        change alookup (adel s.watchedFiles a) c = some g at hc
        by_cases hca : c = a
        · subst hca
          rw [alookup_adel_self] at hc
          cases hc
        · rw [alookup_adel_ne _ _ _ hca] at hc
          exact hbu c hc
  | some old =>
    obtain ⟨b0, hb0, hb0u⟩ := h2 old (h1 a old hw)
    have huniq : ∀ c, ownsFile s c old → c = a :=
      fun c hc => (hb0u c hc).trans (hb0u a hw).symm
    have hstop : (stopWatching a s).claimedFiles = s.claimedFiles.erase old := by
      unfold stopWatching
      rw [hw]
    refine ⟨?_, ?_, ?_⟩
    · rw [hstop]; exact hnd.erase old
    · intro b g hb
      change alookup (adel s.watchedFiles a) b = some g at hb
      rw [hstop]
      by_cases hba : b = a
      · subst hba
        rw [alookup_adel_self] at hb
        cases hb
      · rw [alookup_adel_ne _ _ _ hba] at hb
        have hgold : g ≠ old := by
          intro hgold
          subst hgold
          exact hba (huniq b hb)
        exact (List.mem_erase_of_ne hgold).mpr (h1 b g hb)
    · intro g hg
      rw [hstop] at hg
      obtain ⟨hgold, hgc⟩ := (List.Nodup.mem_erase_iff hnd).mp hg
      obtain ⟨b, hb, hbu⟩ := h2 g hgc
      have hba : b ≠ a := by
        intro hba
        subst hba
        rw [show ownsFile s b g = (alookup s.watchedFiles b = some g) from rfl, hw] at hb
        exact hgold (Option.some_injective _ hb).symm
      refine ⟨b, ?_, ?_⟩
      · change alookup (adel s.watchedFiles a) b = some g
        rw [alookup_adel_ne _ _ _ hba]
        exact hb
      · intro c hc
        change alookup (adel s.watchedFiles a) c = some g at hc
        by_cases hca : c = a
        · subst hca
          rw [alookup_adel_self] at hc
          cases hc
        · rw [alookup_adel_ne _ _ _ hca] at hc
          exact hbu c hc

theorem strongInv_init : strongInv initOwnState := by
  refine ⟨List.nodup_nil, ?_, ?_⟩
  · intro a f h
    cases h
  · intro f hf
    cases hf

theorem strongInv_runOwnOps (ops : List OwnOp) :
    ∀ s : OwnState, strongInv s → guardedOps s ops = true →
      strongInv (runOwnOps ops s) := by
  induction ops with
  | nil => intro s h _; exact h
  | cons op ops ih =>
    intro s h hg
    unfold guardedOps at hg
    rw [Bool.and_eq_true] at hg
    obtain ⟨hop, hrest⟩ := hg
    have h' : strongInv (applyOwnOp s op) := by
      cases op with
      | claim a f now =>
        simp only [Bool.and_eq_true, decide_eq_true_eq, Option.isNone_iff_eq_none] at hop
        exact strongInv_claimFile h hop.1 hop.2
      | switch a f now =>
        simp only [Bool.and_eq_true, decide_eq_true_eq] at hop
        obtain ⟨old, hold⟩ := Option.isSome_iff_exists.mp hop.2
        exact strongInv_switchFile h hop.1 hold
      | stop a => exact strongInv_stopWatching a h
    exact ih (applyOwnOp s op) h' hrest

/-- C1 (amended): at every state reachable from the initial state by
`claimFile`, `switchFile` and `stopWatching` operations that respect the
Phase 2 call discipline (`claimFile` only for an agent with no current file
and a path not in `claimedFiles`; `switchFile` only for an agent with a
current file and a path not in `claimedFiles`), a path is in `claimedFiles`
iff exactly one live agent has it as its current watched file.  Without that
discipline the invariant fails (see the counterexample): the Phase 1
deterministic lookup claims without checking `claimedFiles`. -/

theorem C1_claimed_iff_unique_owner (ops : List OwnOp)
    (h : guardedOps initOwnState ops = true) :
    claimedInv (runOwnOps ops initOwnState) :=
  strongInv_claimedInv (strongInv_runOwnOps ops initOwnState strongInv_init h)

theorem C1_witness :
    guardedOps initOwnState
        [.claim 1 "f.jsonl" 0, .switch 1 "g.jsonl" 5000, .stop 1] = true ∧
    claimedInv (runOwnOps
        [.claim 1 "f.jsonl" 0, .switch 1 "g.jsonl" 5000, .stop 1] initOwnState) :=
  ⟨by decide, C1_claimed_iff_unique_owner _ (by decide)⟩

/-- C1 counterexample: two `claimFile` calls on the same path — exactly what
two concurrent Phase 1 deterministic lookups can issue, since they never
check `claimedFiles` (an adopted agent's generic scan can also have claimed
the session file of another agent first) — reach a state where the path is in
`claimedFiles` but two live agents have it as their current file, refuting the
claim for arbitrary operation sequences. -/

theorem C1_counterexample :
    ¬ claimedInv (runOwnOps [.claim 1 "f.jsonl" 0, .claim 2 "f.jsonl" 0] initOwnState) := by
  intro h
  have h1 : ownsFile (runOwnOps [.claim 1 "f.jsonl" 0, .claim 2 "f.jsonl" 0] initOwnState)
      1 "f.jsonl" := by unfold ownsFile; decide
  have h2 : ownsFile (runOwnOps [.claim 1 "f.jsonl" 0, .claim 2 "f.jsonl" 0] initOwnState)
      2 "f.jsonl" := by unfold ownsFile; decide
  have hf : "f.jsonl" ∈ (runOwnOps [.claim 1 "f.jsonl" 0, .claim 2 "f.jsonl" 0]
      initOwnState).claimedFiles := by decide
  obtain ⟨a, -, hu⟩ := (h "f.jsonl").mp hf
  have e1 := hu 1 h1
  have e2 := hu 2 h2
  omega

/-! ## Claims C4 and C10: the read routine -/

/-- C4 (amended): the read routine is a no-op when the file size is not
greater than the stored offset (so a redundant re-invocation finding no new
bytes changes nothing); otherwise it reads exactly the bytes between the
offset and the current size, prepends the stored remainder, splits on line
boundaries (joining the complete lines and the stored-back final fragment
reconstructs the text exactly), advances the offset to the size, stamps
`lastDataTime` — the `lastActivityAt` of the spec — with the current clock
value after the successful read, and forwards the complete lines in write
order with whitespace-only lines skipped — the source filters `!line.trim()`
before calling the parser, so blank complete lines are split out but not
forwarded.  Over any monotone sequence of reads (any interleaving of the
event-driven and polling mechanisms, each invocation at its own clock value)
the forwarded lines are exactly the non-blank complete lines of the final
content, each once, in write order, and the offset and line buffer end as
after a single read of the final content. -/

theorem C4_read_routine :
    (∀ (content : List Char) (now : Nat) (st : ExtTailState),
        content.length ≤ st.offset → readNewLines content now st = (st, [])) ∧
    (∀ (content : List Char) (now : Nat) (st : ExtTailState), st.offset < content.length →
        (readNewLines content now st).1.offset = content.length ∧
        (readNewLines content now st).1.lastData = now ∧
        (readNewLines content now st).1.buffer
            = lastChunk (splitNl (st.buffer ++ content.drop st.offset)) ∧
        (readNewLines content now st).2
            = (initChunks (splitNl (st.buffer ++ content.drop st.offset))).filter isNonBlank ∧
        joinNl (initChunks (splitNl (st.buffer ++ content.drop st.offset))
            ++ [(readNewLines content now st).1.buffer])
          = st.buffer ++ content.drop st.offset) ∧
    (∀ (content : List Char) (now now' : Nat) (st : ExtTailState),
        readNewLines content now' (readNewLines content now st).1
          = ((readNewLines content now st).1, [])) ∧
    (∀ (c : List Char) (n : Nat) (ps : List (List Char × Nat)) (st : ExtTailState),
        List.Chain' (fun a b => a <+: b) (c :: ps.map Prod.fst) → st.offset ≤ c.length →
        tailProj (runReadNewLines ((c, n) :: ps) st).1
            = tailProj (readNewLines (lastChunk (c :: ps.map Prod.fst)) n st).1 ∧
        (runReadNewLines ((c, n) :: ps) st).2
            = (readNewLines (lastChunk (c :: ps.map Prod.fst)) n st).2) ∧
    (∀ (c : List Char) (n : Nat) (ps : List (List Char × Nat)),
        List.Chain' (fun a b => a <+: b) (c :: ps.map Prod.fst) →
        (runReadNewLines ((c, n) :: ps) ⟨0, [], 0⟩).2
          = (initChunks (splitNl (lastChunk (c :: ps.map Prod.fst)))).filter isNonBlank) := by
  have hrun : ∀ (c : List Char) (n : Nat) (ps : List (List Char × Nat)) (st : ExtTailState),
      List.Chain' (fun a b => a <+: b) (c :: ps.map Prod.fst) → st.offset ≤ c.length →
      tailProj (runReadNewLines ((c, n) :: ps) st).1
          = tailProj (readNewLines (lastChunk (c :: ps.map Prod.fst)) n st).1 ∧
      (runReadNewLines ((c, n) :: ps) st).2
          = (readNewLines (lastChunk (c :: ps.map Prod.fst)) n st).2 := by
    intro c n ps st hchain hoff
    have hsim := runReadNewLines_sim ((c, n) :: ps) st
    have hproj := readNewLines_proj (lastChunk (c :: ps.map Prod.fst)) n st
    have hsingle := runFileWatcherReads_eq_single (ps.map Prod.fst) c (tailProj st) hchain hoff
    constructor
    · have h1 : tailProj (runReadNewLines ((c, n) :: ps) st).1
          = (runFileWatcherReads (c :: ps.map Prod.fst) (tailProj st)).1 := hsim.1
      rw [h1, hsingle, ← hproj.1]
    · have h2 : (runReadNewLines ((c, n) :: ps) st).2
          = (runFileWatcherReads (c :: ps.map Prod.fst) (tailProj st)).2.filter isNonBlank :=
        hsim.2
      rw [h2, hsingle, ← hproj.2]
  refine ⟨fun content now st h => readNewLines_noop h, ?_, ?_, hrun, ?_⟩
  · intro content now st h
    rw [readNewLines_stamp_gt h]
    refine ⟨rfl, rfl, rfl, rfl, ?_⟩
    rw [initChunks_append_lastChunk (splitNl_ne_nil _), joinNl_splitNl]
  · intro content now now' st
    by_cases h : content.length ≤ st.offset
    · rw [readNewLines_noop h]
      exact readNewLines_noop h
    · push_neg at h
      apply readNewLines_noop
      rw [readNewLines_stamp_gt h]
  · intro c n ps hchain
    rw [(hrun c n ps ⟨0, [], 0⟩ hchain (Nat.zero_le _)).2]
    by_cases h : (lastChunk (c :: ps.map Prod.fst)).length ≤ 0
    · have hnil : lastChunk (c :: ps.map Prod.fst) = [] :=
        List.eq_nil_of_length_eq_zero (by omega)
      rw [hnil]
      rfl
    · push_neg at h
      rw [readNewLines_stamp_gt (by simpa using h)]
      simp

theorem C4_witness :
    List.Chain' (fun a b => a <+: b)
        (['a', '\n'] :: [((['a', '\n', 'b', '\n'] : List Char), 9)].map Prod.fst) ∧
    (0 : Nat) < (['a', '\n'] : List Char).length ∧
    (runReadNewLines [(['a', '\n'], 5), (['a', '\n', 'b', '\n'], 9)]
        ⟨0, [], 0⟩).2 = [['a'], ['b']] ∧
    (readNewLines ['a', '\n'] 5 ⟨0, [], 0⟩).1.lastData = 5 := by
  have hch : List.Chain' (fun a b => a <+: b)
      (['a', '\n'] :: [((['a', '\n', 'b', '\n'] : List Char), 9)].map Prod.fst) :=
    List.chain'_cons.mpr ⟨⟨['b', '\n'], rfl⟩, List.chain'_singleton _⟩
  refine ⟨hch, by decide, ?_, ?_⟩
  · rw [C4_read_routine.2.2.2.2 ['a', '\n'] 5 [(['a', '\n', 'b', '\n'], 9)] hch]
    decide
  · exact (C4_read_routine.2.1 ['a', '\n'] 5 ⟨0, [], 0⟩ (by decide)).2.1

/-- C4 counterexample: the file "a\n \nb\n" splits into the complete lines
"a", " ", "b", but the whitespace-only line " " is never forwarded to the
parser, refuting "forwards each complete line to the parser". -/

theorem C4_counterexample :
    initChunks (splitNl ['a', '\n', ' ', '\n', 'b', '\n']) = [['a'], [' '], ['b']] ∧
    (readNewLines ['a', '\n', ' ', '\n', 'b', '\n'] 7 ⟨0, [], 0⟩).2 = [['a'], ['b']] := by
  constructor
  · decide
  · decide

/-- C10: the standalone server's `createLocalAgent` initializes the agent's
file offset to the file's current size, so across any subsequent monotone
sequence of reads exactly the lines of the appended suffix are delivered —
no line already present at discovery ever is — while the extension's
`claimFile` resets the agent's offset to 0. -/

theorem C10_server_skips_existing :
    (∀ (c₀ : List Char) (cs : List (List Char)),
        List.Chain' (fun a b => a <+: b) (c₀ :: cs) →
        (runFileWatcherReads cs
            ⟨(createLocalAgent (some c₀)).fileOffset,
              (createLocalAgent (some c₀)).lineBuffer⟩).2
          = initChunks (splitNl ((lastChunk (c₀ :: cs)).drop c₀.length))) ∧
    (∀ (a : Nat) (f : String) (now : Nat) (s : OwnState),
        alookup (claimFile a f now s).fileOffsets a = some 0) := by
  constructor
  · intro c₀ cs hchain
    cases cs with
    | nil =>
      show ([] : List (List Char)) = _
      rw [lastChunk_single, List.drop_length]
      rfl
    | cons c₁ cs' =>
      obtain ⟨hcc₁, h'⟩ := List.chain'_cons.mp hchain
      rw [show (createLocalAgent (some c₀)).fileOffset = c₀.length from rfl,
        show (createLocalAgent (some c₀)).lineBuffer = [] from rfl]
      rw [runFileWatcherReads_eq_single cs' c₁ ⟨c₀.length, []⟩ h' hcc₁.length_le]
      have hL : c₀ <+: lastChunk (c₀ :: c₁ :: cs') := chain_isPre_last hchain
      obtain ⟨t, ht⟩ := hL
      rw [lastChunk_cons_cons] at ht ⊢
      rw [← ht]
      cases t with
      | nil =>
        rw [List.append_nil, fileWatcherRead_noop (Nat.le_refl _), List.drop_length]
        rfl
      | cons t0 ts =>
        rw [fileWatcherRead_gt (by simp)]
        rw [show (c₀ ++ t0 :: ts).drop c₀.length = t0 :: ts from List.drop_left c₀ (t0 :: ts)]
        rfl
  · intro a f now s
    exact alookup_aset_self _ _ _

theorem C10_witness :
    List.Chain' (fun a b => a <+: b) [['x', '\n'], ['x', '\n', 'z', '\n']] ∧
    (runFileWatcherReads [['x', '\n', 'z', '\n']]
        ⟨(createLocalAgent (some ['x', '\n'])).fileOffset,
          (createLocalAgent (some ['x', '\n'])).lineBuffer⟩).2 = [['z']] ∧
    alookup (claimFile 1 "a.jsonl" 7 initOwnState).fileOffsets 1 = some 0 := by
  have hch : List.Chain' (fun a b => a <+: b) [['x', '\n'], ['x', '\n', 'z', '\n']] :=
    List.chain'_cons.mpr ⟨⟨['z', '\n'], rfl⟩, List.chain'_singleton _⟩
  refine ⟨hch, ?_, C10_server_skips_existing.2 1 "a.jsonl" 7 initOwnState⟩
  rw [C10_server_skips_existing.1 ['x', '\n'] [['x', '\n', 'z', '\n']] hch]
  decide

/-! ## Claims C6, C7, C8: the activity reducer -/

theorem adel_eq_of_lookup_none {κ α : Type} [DecidableEq κ]
    {m : List (κ × α)} {k : κ} (h : alookup m k = none) : adel m k = m := by
  induction m with
  | nil => rfl
  | cons p m ih =>
    obtain ⟨k', v⟩ := p
    by_cases hk : k' = k
    · subst hk
      simp [alookup] at h
    · simp only [alookup, hk, if_false] at h
      simp [adel, hk, ih h]

theorem processTranscriptLine_user_str (c : String) (s : AgentActivity) :
    processTranscriptLine (.user (.str c)) s
      = if isNonBlank c.data = true then clearAgentActivity (cancelWaitingTimer s)
        else (s, []) := rfl

theorem processTranscriptLine_user_arr (blocks : List UserBlock) (s : AgentActivity) :
    processTranscriptLine (.user (.arr blocks)) s
      = if blocks.any isToolResult = true then
          List.foldl processToolResultBlock (s, []) blocks
        else clearAgentActivity (cancelWaitingTimer s) := rfl

theorem processTranscriptLine_assistant (blocks : List AsstBlock) (s : AgentActivity) :
    processTranscriptLine (.assistant (some blocks)) s
      = if blocks.any isToolUse = true then
          List.foldl processToolUseBlock
            ({ cancelWaitingTimer s with waitingStatus := false }, [.agentStatusActive])
            blocks
        else if blocks.any isTextBlock = true then (startWaitingTimer 2000 s, [])
        else (s, []) := rfl

theorem processToolResultBlock_result (acc : AgentActivity × List Msg) (id : String) :
    processToolResultBlock acc (.tool_result id)
      = if id ≠ "" then
          ({ acc.1 with
              activeToolIds := acc.1.activeToolIds.erase id,
              activeToolStatuses := adel acc.1.activeToolStatuses id,
              pendingDones := acc.1.pendingDones ++ [id] }, acc.2)
        else acc := rfl

theorem processToolUseBlock_use (acc : AgentActivity × List Msg)
    (id name : String) (input : ToolInput) :
    processToolUseBlock acc (.tool_use id name input)
      = if id ≠ "" then
          ({ acc.1 with
              activeToolIds := sinsert id acc.1.activeToolIds,
              activeToolStatuses := aset acc.1.activeToolStatuses id
                (formatToolStatus name input) },
            acc.2 ++ [.agentToolStart id (formatToolStatus name input)])
        else acc := rfl

/-- C6 (amended): a completion whose id has no matching start in the active
set leaves the agent's activity state unchanged, but an `agentToolDone`
notification for the unmatched id is still scheduled (the `setTimeout` is
unconditional) and fires 300ms later. -/

theorem C6_unmatched_completion (t : String) (s : AgentActivity)
    (ht : t ≠ "") (hmem : t ∉ s.activeToolIds)
    (hst : alookup s.activeToolStatuses t = none) :
    processTranscriptLine (.user (.arr [.tool_result t])) s
      = ({ s with pendingDones := s.pendingDones ++ [t] }, []) := by
  rw [processTranscriptLine_user_arr,
    if_pos (show ([UserBlock.tool_result t].any isToolResult) = true from rfl),
    List.foldl_cons, List.foldl_nil, processToolResultBlock_result, if_pos ht]
  show ({ s with
      activeToolIds := s.activeToolIds.erase t,
      activeToolStatuses := adel s.activeToolStatuses t,
      pendingDones := s.pendingDones ++ [t] }, []) = _
  rw [List.erase_of_not_mem hmem, adel_eq_of_lookup_none hst]

theorem C6_witness :
    ((("t9" : String) ≠ "") ∧ "t9" ∉ initAgentActivity.activeToolIds ∧
        alookup initAgentActivity.activeToolStatuses "t9" = none) ∧
    processTranscriptLine (.user (.arr [.tool_result "t9"])) initAgentActivity
      = ({ initAgentActivity with pendingDones := ["t9"] }, []) :=
  ⟨⟨by decide, by decide, by decide⟩,
    C6_unmatched_completion "t9" initAgentActivity (by decide) (by decide) (by decide)⟩

/-- C6 counterexample: processing a `tool_result` record whose id was never
started (the active set is empty) still schedules an `agentToolDone`
notification for that id, refuting "no OperationCompleted/agentToolDone
notification to subscribers". -/

theorem C6_counterexample :
    initAgentActivity.activeToolIds = [] ∧
    (processTranscriptLine (.user (.arr [.tool_result "t1"]))
        initAgentActivity).1.pendingDones = ["t1"] := by
  constructor
  · rfl
  · rfl

/-- C7 (amended): a NewPrompt record — a user record whose payload is a plain
string with non-whitespace content, or an array with no `tool_result` entries
(a whitespace-only string payload is ignored entirely and clears nothing) —
clears all active operations and any waiting state, emits exactly one
`agentToolsClear` followed by one active `agentStatus`, schedules no
`agentToolDone`, and, provided no cleared id has a completion timeout already
pending, no `agentToolDone` for any cleared id remains scheduled afterward. -/

theorem C7_new_prompt_clears (r : TranscriptRecord) (s : AgentActivity)
    (hr : (∃ c, r = .user (.str c) ∧ isNonBlank c.data = true) ∨
          (∃ blocks, r = .user (.arr blocks) ∧ blocks.any isToolResult = false))
    (hdisj : ∀ t ∈ s.activeToolIds, t ∉ s.pendingDones) :
    (processTranscriptLine r s).1.activeToolIds = [] ∧
    (processTranscriptLine r s).1.activeToolStatuses = [] ∧
    (processTranscriptLine r s).1.waitingStatus = false ∧
    (processTranscriptLine r s).1.waitingTimer = none ∧
    (processTranscriptLine r s).2 = [.agentToolsClear, .agentStatusActive] ∧
    (processTranscriptLine r s).1.pendingDones = s.pendingDones ∧
    ∀ t ∈ s.activeToolIds, t ∉ (processTranscriptLine r s).1.pendingDones := by
  have hres : processTranscriptLine r s = clearAgentActivity (cancelWaitingTimer s) := by
    rcases hr with ⟨c, rfl, hc⟩ | ⟨blocks, rfl, hb⟩
    · rw [processTranscriptLine_user_str, if_pos hc]
    · rw [processTranscriptLine_user_arr, if_neg (by simp [hb])]
  rw [hres]
  exact ⟨rfl, rfl, rfl, rfl, rfl, rfl, hdisj⟩

theorem C7_witness :
    ((∃ c, TranscriptRecord.user (.str " hi") = .user (.str c) ∧
        isNonBlank c.data = true) ∨
      (∃ blocks, TranscriptRecord.user (.str " hi") = .user (.arr blocks) ∧
        blocks.any isToolResult = false)) ∧
    (∀ t ∈ (["t1", "t2", "t3"] : List String), t ∉ ([] : List String)) ∧
    (processTranscriptLine (.user (.str " hi"))
        ⟨["t1", "t2", "t3"], [("t1", "a"), ("t2", "b"), ("t3", "c")],
          some 2000, false, []⟩).1.activeToolIds = [] ∧
    (processTranscriptLine (.user (.str " hi"))
        ⟨["t1", "t2", "t3"], [("t1", "a"), ("t2", "b"), ("t3", "c")],
          some 2000, false, []⟩).2 = [.agentToolsClear, .agentStatusActive] := by
  have hr : (∃ c, TranscriptRecord.user (.str " hi") = .user (.str c) ∧
      isNonBlank c.data = true) ∨
      (∃ blocks, TranscriptRecord.user (.str " hi") = .user (.arr blocks) ∧
        blocks.any isToolResult = false) :=
    Or.inl ⟨" hi", rfl, by decide⟩
  have hdisj : ∀ t ∈ (["t1", "t2", "t3"] : List String), t ∉ ([] : List String) := by
    decide
  have h := C7_new_prompt_clears (.user (.str " hi"))
    ⟨["t1", "t2", "t3"], [("t1", "a"), ("t2", "b"), ("t3", "c")], some 2000, false, []⟩
    hr hdisj
  exact ⟨hr, hdisj, h.1, h.2.2.2.2.1⟩

/-- C7 counterexample: a user record whose payload is the plain string " "
(whitespace only) is a NewPrompt by the claim's definition, yet it clears
nothing and emits nothing: the active operation survives. -/

theorem C7_counterexample :
    (processTranscriptLine (.user (.str " "))
        ⟨["t1"], [("t1", "a")], none, false, []⟩).1.activeToolIds = ["t1"] ∧
    (processTranscriptLine (.user (.str " "))
        ⟨["t1"], [("t1", "a")], none, false, []⟩).2 = [] := by
  constructor
  · decide
  · decide

theorem foldl_toolUse_waitingTimer (blocks : List AsstBlock) :
    ∀ acc : AgentActivity × List Msg,
      (blocks.foldl processToolUseBlock acc).1.waitingTimer = acc.1.waitingTimer := by
  induction blocks with
  | nil => intro acc; rfl
  | cons b blocks ih =>
    intro acc
    rw [List.foldl_cons, ih]
    cases b with
    | tool_use id name input =>
      rw [processToolUseBlock_use]
      by_cases hid : id ≠ ""
      · rw [if_pos hid]
      · rw [if_neg hid]
    | text => rfl
    | thinking => rfl
    | otherBlock => rfl

/-- C8 (amended): a text-only assistant record arms the 2-second waiting
timer unconditionally — regardless of whether operations are active (the
source performs no active-operations check); if the timer fires without an
intervening cancellation the agent transitions to waiting and subscribers are
notified; an assistant record with `tool_use` blocks and a NewPrompt record
both cancel the pending timer. -/

theorem C8_waiting_timer :
    (∀ (s : AgentActivity) (blocks : List AsstBlock),
        blocks.any isToolUse = false → blocks.any isTextBlock = true →
        processTranscriptLine (.assistant (some blocks)) s = (startWaitingTimer 2000 s, []) ∧
        (startWaitingTimer 2000 s).waitingTimer = some 2000) ∧
    (∀ s : AgentActivity, s.waitingTimer.isSome →
        fireWaitingTimer s
          = ({ s with waitingTimer := none, waitingStatus := true }, [.agentStatusWaiting])) ∧
    (∀ (s : AgentActivity) (blocks : List AsstBlock), blocks.any isToolUse = true →
        (processTranscriptLine (.assistant (some blocks)) s).1.waitingTimer = none) ∧
    (∀ (s : AgentActivity) (c : String), isNonBlank c.data = true →
        (processTranscriptLine (.user (.str c)) s).1.waitingTimer = none) := by
  refine ⟨?_, ?_, ?_, ?_⟩
  · intro s blocks hno hyes
    refine ⟨?_, rfl⟩
    rw [processTranscriptLine_assistant, if_neg (by simp [hno]), if_pos hyes]
  · intro s hs
    obtain ⟨d, hd⟩ := Option.isSome_iff_exists.mp hs
    unfold fireWaitingTimer
    rw [hd]
  · intro s blocks hyes
    rw [processTranscriptLine_assistant, if_pos hyes, foldl_toolUse_waitingTimer]
    rfl
  · intro s c hc
    rw [processTranscriptLine_user_str, if_pos hc]
    rfl

theorem C8_witness :
    ((([AsstBlock.text].any isToolUse) = false ∧ ([AsstBlock.text].any isTextBlock) = true) ∧
      processTranscriptLine (.assistant (some [.text])) initAgentActivity
        = (startWaitingTimer 2000 initAgentActivity, [])) ∧
    ((startWaitingTimer 2000 initAgentActivity).waitingTimer.isSome ∧
      fireWaitingTimer (startWaitingTimer 2000 initAgentActivity)
        = ({ startWaitingTimer 2000 initAgentActivity with
              waitingTimer := none, waitingStatus := true }, [.agentStatusWaiting])) := by
  refine ⟨⟨⟨by decide, by decide⟩, ?_⟩, ⟨by decide, ?_⟩⟩
  · exact (C8_waiting_timer.1 initAgentActivity [.text] (by decide) (by decide)).1
  · exact C8_waiting_timer.2.1 (startWaitingTimer 2000 initAgentActivity) (by decide)

/-- C8 counterexample: a text-only assistant record processed while an
operation is active still arms the 2s waiting timer, refuting "arms the
2-second waiting timer only if no operations are currently active". -/

theorem C8_counterexample :
    (⟨["t1"], [("t1", "a")], none, false, []⟩ : AgentActivity).activeToolIds ≠ [] ∧
    (processTranscriptLine (.assistant (some [.text]))
        ⟨["t1"], [("t1", "a")], none, false, []⟩).1.waitingTimer = some 2000 := by
  constructor
  · decide
  · decide

/-! ## Claim C9: the projectKey normalization -/

theorem map_id_of_mem (l : List Char) (f : Char → Char) (h : ∀ c ∈ l, f c = c) :
    l.map f = l := by
  induction l with
  | nil => rfl
  | cons c cs ih =>
    rw [List.map_cons, h c (List.mem_cons_self c cs),
      ih (fun x hx => h x (List.mem_cons_of_mem c hx))]

theorem projectNameOf_eq_map (s : List Char) :
    projectNameOf s = s.map (fun c => if c = '-' then '/' else c) := by
  unfold projectNameOf replaceLeadingDash
  cases s with
  | nil => rfl
  | cons c cs =>
    by_cases hc : c = '-'
    · subst hc
      simp
    · simp [hc]

/-- C9 (amended): the encoding (path separators, colons and backslashes to
dashes) composed with the scanner's decoding (dashes back to slashes) is the
identity exactly on paths free of `-`, `:` and `\`, and on that class the
encoding is injective; on arbitrary paths it is neither reversible nor
collision-free (see the counterexample). -/

theorem C9_roundtrip (p : List Char)
    (hp : ∀ c ∈ p, c ≠ '-' ∧ c ≠ ':' ∧ c ≠ '\\') :
    projectNameOf (getProjectDirName p) = p ∧
    ∀ q : List Char, (∀ c ∈ q, c ≠ '-' ∧ c ≠ ':' ∧ c ≠ '\\') →
      getProjectDirName p = getProjectDirName q → p = q := by
  have hrt : ∀ r : List Char, (∀ c ∈ r, c ≠ '-' ∧ c ≠ ':' ∧ c ≠ '\\') →
      projectNameOf (getProjectDirName r) = r := by
    intro r hr
    rw [projectNameOf_eq_map]
    unfold getProjectDirName
    rw [List.map_map]
    apply map_id_of_mem
    intro c hc
    obtain ⟨h1, h2, h3⟩ := hr c hc
    by_cases h : c = '/'
    · subst h
      simp
    · simp [h, h1, h2, h3]
  refine ⟨hrt p hp, ?_⟩
  intro q hq heq
  rw [← hrt p hp, ← hrt q hq, heq]

theorem C9_witness :
    (∀ c ∈ (['/', 'a', '/', 'b'] : List Char), c ≠ '-' ∧ c ≠ ':' ∧ c ≠ '\\') ∧
    projectNameOf (getProjectDirName ['/', 'a', '/', 'b']) = ['/', 'a', '/', 'b'] :=
  ⟨by decide, (C9_roundtrip ['/', 'a', '/', 'b'] (by decide)).1⟩

/-- C9 counterexample: the distinct paths "/a-b" and "/a/b" encode to the same
directory name "-a-b", and decoding that name yields "/a/b": the normalization
is neither collision-free nor reversible on all paths. -/

theorem C9_counterexample :
    getProjectDirName ['/', 'a', '-', 'b'] = getProjectDirName ['/', 'a', '/', 'b'] ∧
    (['/', 'a', '-', 'b'] : List Char) ≠ ['/', 'a', '/', 'b'] ∧
    projectNameOf (getProjectDirName ['/', 'a', '-', 'b']) = ['/', 'a', '/', 'b'] := by
  refine ⟨?_, ?_, ?_⟩
  · decide
  · decide
  · decide

/-! ## Claims C2 and C5: the session scanner -/

theorem nodup_append_singleton {α : Type} {l : List α} {a : α}
    (hl : l.Nodup) (ha : a ∉ l) : (l ++ [a]).Nodup := by
  induction l with
  | nil => simp
  | cons x xs ih =>
    rw [List.cons_append]
    rw [List.nodup_cons] at hl ⊢
    simp only [List.mem_cons, not_or] at ha
    refine ⟨?_, ih hl.2 ha.2⟩
    intro hx
    rcases List.mem_append.mp hx with hx | hx
    · exact hl.1 hx
    · simp at hx
      exact ha.1 hx.symm

theorem scanInv_grow {s s' : ScannerState} {E : List (String × String)}
    (hsub : ∀ k ∈ s.knownFiles, k ∈ s'.knownFiles)
    (h : scanInv (s, E)) : scanInv (s', E) :=
  ⟨h.1, fun e he => hsub _ (h.2 e he)⟩

theorem scanInv_emit {s : ScannerState} {E : List (String × String)}
    (nodeName f : String) (h : scanInv (s, E))
    (hk : scannerKey nodeName f ∉ s.knownFiles) :
    scanInv ({ s with knownFiles := sinsert (scannerKey nodeName f) s.knownFiles },
      E ++ [(nodeName, f)]) := by
  obtain ⟨hnd, hmem⟩ := h
  constructor
  · rw [List.map_append, List.map_cons, List.map_nil]
    refine nodup_append_singleton hnd ?_
    intro hin
    obtain ⟨e, he, hkey⟩ := List.mem_map.mp hin
    have hkey' : scannerKey e.1 e.2 = scannerKey nodeName f := hkey
    exact hk (hkey' ▸ hmem e he)
  · intro e he
    rcases List.mem_append.mp he with he | he
    · exact (mem_sinsert _ _ _).mpr (Or.inr (hmem e he))
    · simp at he
      subst he
      exact (mem_sinsert _ _ _).mpr (Or.inl rfl)

theorem scanInv_scanLocalFile (now threshold : Nat) (node : ClusterNode)
    (st : ScannerState × List (String × String)) (p : String × Nat)
    (h : scanInv st) : scanInv (scanLocalFile now threshold node st p) := by
  obtain ⟨s, E⟩ := st
  unfold scanLocalFile
  by_cases hk : scannerKey node.name p.1 ∈ s.knownFiles
  · rw [if_pos hk]
    exact h
  · rw [if_neg hk]
    by_cases hc : ¬ s.initialScanDone ∧ now - p.2 > threshold * 60 * 1000
    · rw [if_pos hc]
      exact scanInv_grow (fun k hkm => (mem_sinsert _ _ _).mpr (Or.inr hkm)) h
    · rw [if_neg hc]
      exact scanInv_emit node.name p.1 h hk

theorem scanInv_scanRemoteFile (node : ClusterNode)
    (st : ScannerState × List (String × String)) (p : String × Nat)
    (h : scanInv st) : scanInv (scanRemoteFile node st p) := by
  obtain ⟨s, E⟩ := st
  unfold scanRemoteFile
  by_cases hk : scannerKey node.name p.1 ∈ s.knownFiles
  · rw [if_pos hk]
    exact h
  · rw [if_neg hk]
    exact scanInv_emit node.name p.1 h hk

theorem scanInv_foldl {β : Type}
    (step : ScannerState × List (String × String) → β →
      ScannerState × List (String × String))
    (hstep : ∀ st b, scanInv st → scanInv (step st b)) :
    ∀ (bs : List β) (st : ScannerState × List (String × String)),
      scanInv st → scanInv (bs.foldl step st) := by
  intro bs
  induction bs with
  | nil => intro st h; exact h
  | cons b bs ih =>
    intro st h
    rw [List.foldl_cons]
    exact ih (step st b) (hstep st b h)

theorem scanInv_applyScanOp (st : ScannerState × List (String × String))
    (op : ScanOp) (h : scanInv st) : scanInv (applyScanOp st op) := by
  cases op with
  | localScan node now threshold dirs =>
    show scanInv (scanLocal now threshold node dirs st)
    unfold scanLocal
    refine scanInv_foldl _ ?_ dirs st h
    intro st' files h'
    unfold scanLocalDir
    exact scanInv_foldl _ (fun st'' p h'' => scanInv_scanLocalFile now threshold node st'' p h'')
      files st' h'
  | remoteScan node now threshold files =>
    show scanInv (scanRemote now threshold node files st)
    unfold scanRemote
    exact scanInv_foldl _ (fun st'' p h'' => scanInv_scanRemoteFile node st'' p h'') _ st h
  | mark node file =>
    obtain ⟨s, E⟩ := st
    exact scanInv_grow (fun k hkm => (mem_sinsert _ _ _).mpr (Or.inr hkm)) h
  | finishScan =>
    obtain ⟨s, E⟩ := st
    exact scanInv_grow (fun k hkm => hkm) h

/-- C2: across every sequence of scanner steps — local scans, remote scan
callbacks, `markKnown` calls and the end-of-first-scan flag assignment, in any
interleaving — a given `(node, path)` pair is emitted to `onNewSession` at
most once for the lifetime of the scanner. -/

theorem C2_discovered_at_most_once (ops : List ScanOp) (n f : String) :
    ((runScanOps ops (initScannerState, [])).2).Nodup ∧
    @List.count (String × String) instBEqOfDecidableEq (n, f)
      ((runScanOps ops (initScannerState, [])).2) ≤ 1 := by
  have hinv : scanInv (runScanOps ops (initScannerState, [])) := by
    unfold runScanOps
    refine scanInv_foldl _ (fun st op h => scanInv_applyScanOp st op h) ops _ ?_
    exact ⟨List.nodup_nil, fun e he => absurd he (List.not_mem_nil e)⟩
  have hnd : ((runScanOps ops (initScannerState, [])).2).Nodup := hinv.1.of_map
  exact ⟨hnd, List.nodup_iff_count_le_one.mp hnd (n, f)⟩

/-- C5 (amended): for a local node, only the very first scan (before
`initialScanDone` is set) restricts discovery to files modified within the
activity window, and every subsequent local scan surfaces any new file
regardless of age; for a remote node, however, EVERY scan is restricted to
the activity window, because the remote listing itself always filters with
`find -mmin -threshold` — an old remote file that was not active during any
scan is never surfaced, first scan or later. -/

theorem C5_activity_window (now threshold : Nat) (node : ClusterNode) (f : String)
    (m : Nat) (s : ScannerState) (E : List (String × String))
    (hk : scannerKey node.name f ∉ s.knownFiles) :
    (s.initialScanDone = true →
      (scanLocal now threshold node [[(f, m)]] (s, E)).2 = E ++ [(node.name, f)]) ∧
    (s.initialScanDone = false →
      (scanLocal now threshold node [[(f, m)]] (s, E)).2
        = if now - m > threshold * 60 * 1000 then E else E ++ [(node.name, f)]) ∧
    ((scanRemote now threshold node [(f, m)] (s, E)).2
      = if now - m < threshold * 60 * 1000 then E ++ [(node.name, f)] else E) := by
  have hlocal : scanLocal now threshold node [[(f, m)]] (s, E)
      = scanLocalFile now threshold node (s, E) (f, m) := by
    unfold scanLocal scanLocalDir
    rw [List.foldl_cons, List.foldl_nil, List.foldl_cons, List.foldl_nil]
  refine ⟨?_, ?_, ?_⟩
  · intro hdone
    rw [hlocal]
    unfold scanLocalFile
    rw [if_neg hk, if_neg (by rw [hdone]; intro hcon; exact hcon.1 rfl)]
  · intro hdone
    rw [hlocal]
    unfold scanLocalFile
    rw [if_neg hk]
    by_cases hage : now - m > threshold * 60 * 1000
    · rw [if_pos (And.intro (by simp [hdone]) hage), if_pos hage]
    · rw [if_neg (by intro hcon; exact hage hcon.2), if_neg hage]
  · unfold scanRemote
    by_cases hage : now - m < threshold * 60 * 1000
    · rw [show List.filter (fun p => decide (now - p.2 < threshold * 60 * 1000)) [(f, m)]
          = [(f, m)] by simp [hage]]
      rw [List.foldl_cons, List.foldl_nil]
      unfold scanRemoteFile
      rw [if_neg hk, if_pos hage]
    · rw [show List.filter (fun p => decide (now - p.2 < threshold * 60 * 1000)) [(f, m)]
          = [] by simp [hage]]
      rw [List.foldl_nil, if_neg hage]

theorem C5_witness :
    scannerKey "n" "new.jsonl" ∉ (⟨[], true⟩ : ScannerState).knownFiles ∧
    (⟨[], true⟩ : ScannerState).initialScanDone = true ∧
    (scanLocal 10000000 10 ⟨"n", "h", true⟩ [[("new.jsonl", 0)]]
        (⟨[], true⟩, [])).2 = [("n", "new.jsonl")] := by
  have hk : scannerKey "n" "new.jsonl" ∉ (⟨[], true⟩ : ScannerState).knownFiles := by
    decide
  refine ⟨hk, rfl, ?_⟩
  have h := (C5_activity_window 10000000 10 ⟨"n", "h", true⟩ "new.jsonl" 0
    ⟨[], true⟩ [] hk).1 rfl
  rw [h]
  rfl

/-- C5 counterexample: a remote node's second scan (the initial scan is done)
sees a brand-new-to-the-scanner file whose mtime lies outside the activity
window; the claim says a subsequent scan surfaces any new file regardless of
age, but the `find -mmin` filter keeps every remote scan age-restricted and
nothing is emitted. -/

theorem C5_counterexample :
    scannerKey "n" "old.jsonl" ∉ (⟨[], true⟩ : ScannerState).knownFiles ∧
    (⟨[], true⟩ : ScannerState).initialScanDone = true ∧
    (scanRemote 10000000 10 ⟨"n", "h", false⟩ [("old.jsonl", 0)]
        (⟨[], true⟩, [])).2 = [] := by
  refine ⟨by decide, rfl, ?_⟩
  rfl

/-! ## Claim C3: same-directory rotation arbitration -/

theorem filter_congr_mem {α : Type} (l : List α) (p q : α → Bool)
    (h : ∀ a ∈ l, p a = q a) : l.filter p = l.filter q := by
  induction l with
  | nil => rfl
  | cons x xs ih =>
    rw [List.filter_cons, List.filter_cons, h x (List.mem_cons_self x xs),
      ih (fun a ha => h a (List.mem_cons_of_mem x ha))]

theorem foldl_fix {α β : Type} (f : β → α → β) (s : β) (l : List α)
    (h : ∀ x ∈ l, f s x = s) : l.foldl f s = s := by
  induction l with
  | nil => rfl
  | cons x xs ih =>
    rw [List.foldl_cons, h x (List.mem_cons_self x xs)]
    exact ih (fun a ha => h a (List.mem_cons_of_mem x ha))

theorem mem_split_of_nodup {l : List Nat} {a : Nat} (ha : a ∈ l) (hnd : l.Nodup) :
    ∃ pre post, l = pre ++ a :: post ∧ a ∉ pre ∧ a ∉ post := by
  induction l with
  | nil => cases ha
  | cons x xs ih =>
    rw [List.nodup_cons] at hnd
    rcases List.mem_cons.mp ha with rfl | ha'
    · exact ⟨[], xs, rfl, List.not_mem_nil a, hnd.1⟩
    · obtain ⟨pre, post, heq, hpre, hpost⟩ := ih ha' hnd.2
      refine ⟨x :: pre, post, by rw [heq, List.cons_append], ?_, hpost⟩
      intro hmem
      rcases List.mem_cons.mp hmem with rfl | hmem'
      · exact hnd.1 (heq ▸ ha')
      · exact hpre hmem'

/-- C3: in a scan cycle where the agents of `order` all share project
directory `d`, all have a current file stale for more than 3s, and all see
the same single new unclaimed file `fNew` (every other listed file being
known at launch to each of them), exactly one agent claims `fNew` — the agent
`amax` with the most recent `lastDataTime` among them — and every other such
agent's current file is untouched that cycle, whichever order the per-agent
scans run in. -/

theorem C3_rotation_arbitration
    (env : ScanEnv) (d fNew : String) (m : Nat) (s₀ : OwnState)
    (order : List Nat) (amax : Nat)
    (hnd : order.Nodup) (hmem : amax ∈ order) (hlen : 2 ≤ order.length)
    (hdirs : ∀ q ∈ s₀.agentProjectDirs, q.2 = d → q.1 ∈ order)
    (heach : ∀ b ∈ order, alookup s₀.agentProjectDirs b = some d ∧
        (alookup s₀.watchedFiles b).isSome ∧
        env.now - (alookup s₀.lastDataTime b).getD 0 > 3000)
    (hmax : ∀ b ∈ order, b ≠ amax →
        (alookup s₀.lastDataTime b).getD 0 < (alookup s₀.lastDataTime amax).getD 0)
    (hentry : (env.listDir d).filter (fun p => decide (p.1 = fNew)) = [(fNew, m)])
    (hfresh : fNew ∉ s₀.claimedFiles)
    (hunknown : ∀ b ∈ order, fNew ∉ (alookup s₀.knownFilesAtLaunch b).getD [])
    (hknown : ∀ p ∈ env.listDir d, p.1 ≠ fNew →
        ∀ b ∈ order, p.1 ∈ (alookup s₀.knownFilesAtLaunch b).getD []) :
    alookup ((order.foldl (fun s a => scanForNewFile env a s) s₀)).watchedFiles amax
        = some fNew ∧
    ∀ b ∈ order, b ≠ amax →
      alookup ((order.foldl (fun s a => scanForNewFile env a s) s₀)).watchedFiles b
        = alookup s₀.watchedFiles b := by
  -- every eligible agent's unclaimed list at the initial state is [(fNew, m)]
  have hfilterS0 : ∀ b ∈ order, unclaimedFiles env b d s₀ = [(fNew, m)] := by
    intro b hb
    unfold unclaimedFiles
    rw [filter_congr_mem (env.listDir d) _ (fun p => decide (p.1 = fNew)), hentry]
    intro p hp
    by_cases hpf : p.1 = fNew
    · rw [hpf]
      rw [decide_eq_true (by exact ⟨hunknown b hb, hfresh⟩), decide_eq_true rfl]
    · rw [decide_eq_false (by
          intro hcon
          exact hcon.1 (hknown p hp hpf b hb)),
        decide_eq_false hpf]
  have hcand : ∀ b ∈ order, newestCandidate env b d s₀ = fNew := by
    intro b hb
    unfold newestCandidate
    rw [hfilterS0 b hb]
    rfl
  obtain ⟨oldF, holdF⟩ := Option.isSome_iff_exists.mp (heach amax hmem).2.1
  -- the state after amax switches
  have hproj₁ : (switchFile amax fNew env.now s₀).agentProjectDirs
      = s₀.agentProjectDirs := by
    unfold switchFile claimFile
    rw [holdF]
  have hsess₁ : (switchFile amax fNew env.now s₀).agentSessionIds
      = s₀.agentSessionIds := by
    unfold switchFile claimFile
    rw [holdF]
  have hwatch₁ : (switchFile amax fNew env.now s₀).watchedFiles
      = aset s₀.watchedFiles amax fNew := by
    unfold switchFile claimFile
    rw [holdF]
  have hclaim₁ : (switchFile amax fNew env.now s₀).claimedFiles
      = sinsert fNew (s₀.claimedFiles.erase oldF) := by
    unfold switchFile claimFile
    rw [holdF]
  have hlast₁ : (switchFile amax fNew env.now s₀).lastDataTime
      = aset s₀.lastDataTime amax env.now := by
    unfold switchFile claimFile
    rw [holdF]
  have hknown₁ : ∀ b : Nat, b ≠ amax →
      alookup (switchFile amax fNew env.now s₀).knownFilesAtLaunch b
        = alookup s₀.knownFilesAtLaunch b := by
    intro b hbne
    unfold switchFile claimFile
    rw [holdF]
    cases alookup s₀.knownFilesAtLaunch amax with
    | none => rfl
    | some ks => exact alookup_aset_ne _ _ _ _ hbne
  -- a non-maximal agent's scan before amax has run is a no-op
  have hA : ∀ b ∈ order, b ≠ amax → scanForNewFile env b s₀ = s₀ := by
    intro b hb hbne
    obtain ⟨hdir, hwatch, hstale⟩ := heach b hb
    obtain ⟨fb, hfb⟩ := Option.isSome_iff_exists.mp hwatch
    have hany : (s₀.agentProjectDirs.any fun q => decide
        (q.1 ≠ b ∧ q.2 = d ∧ (alookup s₀.watchedFiles q.1).isSome ∧
          env.now - ((alookup s₀.lastDataTime q.1).getD 0) > 3000 ∧
          ((alookup s₀.lastDataTime q.1).getD 0)
            > (alookup s₀.lastDataTime b).getD 0)) = true := by
      refine List.any_eq_true.mpr ⟨(amax, d), alookup_mem (heach amax hmem).1, ?_⟩
      exact decide_eq_true ⟨Ne.symm hbne, rfl, (heach amax hmem).2.1,
        (heach amax hmem).2.2, hmax b hb hbne⟩
    have hphase2 : scanPhase2 env b d s₀ = s₀ := by
      unfold scanPhase2
      rw [hfilterS0 b hb]
      rw [if_neg (by simp)]
      rw [hfb]
      rw [if_neg (by omega)]
      rw [if_pos hany]
    cases hsess : alookup s₀.agentSessionIds b with
    | none =>
      unfold scanForNewFile
      rw [hdir, hsess]
      exact hphase2
    | some sid =>
      unfold scanForNewFile
      rw [hdir, hsess, hfb]
      show (if env.now - (alookup s₀.lastDataTime b).getD 0 ≤ 3000 then s₀
        else scanPhase2 env b d s₀) = s₀
      rw [if_neg (by omega)]
      exact hphase2
  -- amax's scan switches to fNew
  have hB : scanForNewFile env amax s₀ = switchFile amax fNew env.now s₀ := by
    obtain ⟨hdir, hwatch, hstale⟩ := heach amax hmem
    have hany : (s₀.agentProjectDirs.any fun q => decide
        (q.1 ≠ amax ∧ q.2 = d ∧ (alookup s₀.watchedFiles q.1).isSome ∧
          env.now - ((alookup s₀.lastDataTime q.1).getD 0) > 3000 ∧
          ((alookup s₀.lastDataTime q.1).getD 0)
            > (alookup s₀.lastDataTime amax).getD 0)) = false := by
      rw [List.any_eq_false]
      intro q hq
      intro hcon
      rw [decide_eq_true_eq] at hcon
      obtain ⟨hne, hdir', -, -, hgt⟩ := hcon
      have := hmax q.1 (hdirs q hq hdir') hne
      omega
    have hphase2 : scanPhase2 env amax d s₀ = switchFile amax fNew env.now s₀ := by
      unfold scanPhase2
      rw [hfilterS0 amax hmem]
      rw [if_neg (by simp)]
      rw [holdF]
      rw [if_neg (by omega)]
      rw [hany]
      rw [if_neg (by simp)]
      rw [hcand amax hmem]
    cases hsess : alookup s₀.agentSessionIds amax with
    | none =>
      unfold scanForNewFile
      rw [hdir, hsess]
      exact hphase2
    | some sid =>
      unfold scanForNewFile
      rw [hdir, hsess, holdF]
      show (if env.now - (alookup s₀.lastDataTime amax).getD 0 ≤ 3000 then s₀
        else scanPhase2 env amax d s₀) = switchFile amax fNew env.now s₀
      rw [if_neg (by omega)]
      exact hphase2
  -- a non-maximal agent's scan after amax has switched is a no-op
  have hC : ∀ b ∈ order, b ≠ amax →
      scanForNewFile env b (switchFile amax fNew env.now s₀)
        = switchFile amax fNew env.now s₀ := by
    intro b hb hbne
    obtain ⟨hdir, hwatch, hstale⟩ := heach b hb
    obtain ⟨fb, hfb⟩ := Option.isSome_iff_exists.mp hwatch
    have hdir₁ : alookup (switchFile amax fNew env.now s₀).agentProjectDirs b
        = some d := by rw [hproj₁]; exact hdir
    have hfb₁ : alookup (switchFile amax fNew env.now s₀).watchedFiles b
        = some fb := by
      rw [hwatch₁, alookup_aset_ne _ _ _ _ hbne]
      exact hfb
    have hlast₁b : alookup (switchFile amax fNew env.now s₀).lastDataTime b
        = alookup s₀.lastDataTime b := by
      rw [hlast₁]
      exact alookup_aset_ne _ _ _ _ hbne
    have hfilterS1 : unclaimedFiles env b d (switchFile amax fNew env.now s₀) = [] := by
      unfold unclaimedFiles
      rw [List.filter_eq_nil_iff]
      intro p hp
      intro hcon
      rw [decide_eq_true_eq] at hcon
      obtain ⟨hk1, hc1⟩ := hcon
      by_cases hpf : p.1 = fNew
      · apply hc1
        rw [hclaim₁, hpf]
        exact (mem_sinsert _ _ _).mpr (Or.inl rfl)
      · apply hk1
        rw [hknown₁ b hbne]
        exact hknown p hp hpf b hb
    have hphase2 : scanPhase2 env b d (switchFile amax fNew env.now s₀)
        = switchFile amax fNew env.now s₀ := by
      unfold scanPhase2
      rw [hfilterS1]
      rw [if_pos rfl]
    cases hsess : alookup (switchFile amax fNew env.now s₀).agentSessionIds b with
    | none =>
      unfold scanForNewFile
      rw [hdir₁, hsess]
      exact hphase2
    | some sid =>
      unfold scanForNewFile
      rw [hdir₁, hsess, hfb₁]
      show (if env.now
            - (alookup (switchFile amax fNew env.now s₀).lastDataTime b).getD 0 ≤ 3000
        then switchFile amax fNew env.now s₀
        else scanPhase2 env b d (switchFile amax fNew env.now s₀))
          = switchFile amax fNew env.now s₀
      rw [if_neg (by rw [hlast₁b]; omega)]
      exact hphase2
  -- run the cycle
  obtain ⟨pre, post, rfl, hpre, hpost⟩ := mem_split_of_nodup hmem hnd
  have hrun : (pre ++ amax :: post).foldl (fun s a => scanForNewFile env a s) s₀
      = switchFile amax fNew env.now s₀ := by
    rw [List.foldl_append]
    rw [foldl_fix _ _ pre (fun x hx => hA x (List.mem_append_left _ hx)
      (fun hxe => hpre (hxe ▸ hx)))]
    rw [List.foldl_cons, hB]
    exact foldl_fix _ _ post (fun x hx => hC x
      (List.mem_append_right _ (List.mem_cons_of_mem _ hx))
      (fun hxe => hpost (hxe ▸ hx)))
  rw [hrun, hwatch₁]
  refine ⟨alookup_aset_self _ _ _, ?_⟩
  intro b hb hbne
  exact alookup_aset_ne _ _ _ _ hbne

theorem C3_witness :
    alookup (([1, 2].foldl
        (fun s a => scanForNewFile ⟨20000, fun _ => false, fun _ => [("g", 100)]⟩ a s)
        ⟨[(1, "f1"), (2, "f2")], ["f1", "f2"], [(1, []), (2, [])],
          [(1, 10000), (2, 9000)], [], [], [(1, "d"), (2, "d")], []⟩)).watchedFiles 1
      = some "g" ∧
    alookup (([1, 2].foldl
        (fun s a => scanForNewFile ⟨20000, fun _ => false, fun _ => [("g", 100)]⟩ a s)
        ⟨[(1, "f1"), (2, "f2")], ["f1", "f2"], [(1, []), (2, [])],
          [(1, 10000), (2, 9000)], [], [], [(1, "d"), (2, "d")], []⟩)).watchedFiles 2
      = alookup (⟨[(1, "f1"), (2, "f2")], ["f1", "f2"], [(1, []), (2, [])],
          [(1, 10000), (2, 9000)], [], [], [(1, "d"), (2, "d")], []⟩ :
            OwnState).watchedFiles 2 := by
  have h := C3_rotation_arbitration ⟨20000, fun _ => false, fun _ => [("g", 100)]⟩
    "d" "g" 100
    ⟨[(1, "f1"), (2, "f2")], ["f1", "f2"], [(1, []), (2, [])],
      [(1, 10000), (2, 9000)], [], [], [(1, "d"), (2, "d")], []⟩
    [1, 2] 1
    (by decide) (by decide) (by decide)
    (by decide) (by decide) (by decide)
    (by decide) (by decide) (by decide) (by decide)
  exact ⟨h.1, h.2 2 (by decide) (by decide)⟩
